import Mathlib

/-!
Berryboot installer: display names, boot parameters, disk space, image catalog.

A shallow embedding of `BerrybootGUI2.0/installer.cpp`.

Text.  A `QString` or `QByteArray` is embedded as a `String` whose characters stand for
8-bit characters; on such text `toAscii` and the conversion of a byte array back to a
string keep every character.  The string primitives of Qt that the code calls are written
over `List Char`, with `none` for the result `-1` of a search.

Paths.  The code builds every path by appending a name to `/mnt/images/` or `/mnt/data/`.
The embedding covers names that are a single path component (no `/`); the empty name,
`.` and `..` then designate a directory and are treated as such.
-/

namespace Installer

/-! ## Qt string primitives -/

/-- The call `QString::replace(before, after)` on characters. -/
def qReplace (before after : Char) (s : List Char) : List Char :=
  s.map fun c => if c = before then after else c

/-- The call `indexOf(pat)`: the first position at which `pat` occurs, `none` for `-1`. -/
def qIndexOf (pat : List Char) : List Char → Option Nat
  | [] => if pat.isPrefixOf [] then some 0 else none
  | c :: cs =>
    if pat.isPrefixOf (c :: cs) then some 0
    else (qIndexOf pat cs).map (· + 1)

/-- The call `indexOf(pat, start)`: the first position not before `start` at which `pat`
occurs. -/
def qIndexOfFrom (pat s : List Char) (start : Nat) : Option Nat :=
  (qIndexOf pat (s.drop start)).map (· + start)

/-- The call `lastIndexOf(pat)`: the last position at which `pat` occurs, `none` for `-1`. -/
def qLastIndexOf (pat : List Char) : List Char → Option Nat
  | [] => if pat.isPrefixOf [] then some 0 else none
  | c :: cs =>
    match qLastIndexOf pat cs with
    | some i => some (i + 1)
    | none => if pat.isPrefixOf (c :: cs) then some 0 else none

/-- The call `mid(pos)`: the text from position `pos` to the end. -/
def qMid (s : List Char) (pos : Nat) : List Char := s.drop pos

/-- The call `mid(pos, len)`: at most `len` characters from position `pos`. -/
def qMidLen (s : List Char) (pos len : Nat) : List Char := (s.drop pos).take len

/-- The characters `isspace` accepts, which `QByteArray::trimmed` removes. -/
def qIsSpace (c : Char) : Bool :=
  c = ' ' || c = '\t' || c = '\n' || c = '\x0b' || c = '\x0c' || c = '\r'

/-- The call `QByteArray::trimmed`: white space removed at both ends. -/
def qTrimmed (s : List Char) : List Char :=
  (s.dropWhile qIsSpace).rdropWhile qIsSpace

/-- The call `QString::toAscii`, on 8-bit text. -/
def toAscii (s : String) : String := s

/-! ## Display names -/

/-- The extension the display name loses. -/
def imgExt : List Char := ['.', 'i', 'm', 'g']

/-- The body of `Installer::imageFilenameToFriendlyName`, on the characters of the name. -/
def friendlyChars (name : List Char) : List Char :=
  let n := qReplace '_' ' ' name
  let n := match qLastIndexOf ['/'] n with
    | some slashpos => qMid n (slashpos + 1)
    | none => n
  match qLastIndexOf imgExt n with
  | some imgpos => qMidLen n 0 imgpos
  | none => n

/-- The function `Installer::imageFilenameToFriendlyName`. -/
def imageFilenameToFriendlyName (name : String) : String :=
  String.mk (friendlyChars name.data)

/-- The final path segment of the name once underscores are spaces: the part after the
last `/`, the whole text when there is none. -/
def displaySegment (x : List Char) : List Char :=
  (qReplace '_' ' ' x).rtakeWhile (· ≠ '/')

/-- The derivation in the words of the specification: underscores become spaces, the part
after the last `/` is kept, and the suffix `.img` is removed when the segment ends with it. -/
def friendlyNameReference (x : String) : String :=
  let seg := displaySegment x.data
  String.mk (if imgExt.isSuffixOf seg then seg.take (seg.length - imgExt.length) else seg)

/-! ## Boot parameters -/

/-- The function `Installer::bootoptions`, as a function of the content of
`/proc/cmdline`: that content, trimmed. -/
def bootoptions (cmdline : String) : String :=
  String.mk (qTrimmed cmdline.data)

/-- The function `Installer::bootParam`, as a function of the content of `/proc/cmdline`. -/
def bootParam (cmdline : String) (name : String) : String :=
  let line := (bootoptions cmdline).data
  let searchFor := name.data ++ ['=']
  let searchForLen := searchFor.length
  match qIndexOf searchFor line with
  | none => ""
  | some pos =>
    match qIndexOfFrom [' '] line (pos + searchForLen) with
    | some e => String.mk (qMidLen line (pos + searchForLen) (e - pos - searchForLen))
    | none => String.mk (qMid line (pos + searchForLen))

/-- The function `Installer::datadev`. -/
def datadev (cmdline : String) : String :=
  bootParam cmdline "datadev"

/-- The tokens of a boot parameter line: the pieces between its spaces. -/
def bootTokens (line : List Char) : List (List Char) :=
  line.splitOn ' '

/-- The key of a `key=value` token: the text before its first `=`; a token without `=`
has no key. -/
def tokenKey (t : List Char) : Option (List Char) :=
  if '=' ∈ t then some (t.takeWhile (· ≠ '=')) else none

/-- The value of a `key=value` token: the text after its first `=`. -/
def tokenValue (t : List Char) : List Char :=
  (t.dropWhile (· ≠ '=')).drop 1

/-- The first token of the line whose key is exactly `k`, if any. -/
def findToken (line : String) (k : String) : Option (List Char) :=
  (bootTokens line.data).find? fun t => tokenKey t = some k.data

/-- The lookup in the words of the specification: the value of the first token whose key
is exactly `k`, the empty text when the line has no such token. -/
def bootParamReference (line : String) (k : String) : String :=
  match findToken line k with
  | some t => String.mk (tokenValue t)
  | none => ""

/-- No token of the line contains `k=` after its first character: the text `k=` occurs in
the line only where a token starts. -/
def TokenAligned (k : String) (line : String) : Prop :=
  ∀ t ∈ bootTokens line.data, ¬ (k.data ++ ['=']) <:+: t.tail

instance (k line : String) : Decidable (TokenAligned k line) := by
  unfold TokenAligned
  infer_instance

/-- A key name proper: it contains neither a space nor `=`. -/
def KeyName (k : String) : Prop :=
  ' ' ∉ k.data ∧ '=' ∉ k.data

instance (k : String) : Decidable (KeyName k) := by
  unfold KeyName
  infer_instance

/-- What `bootParam` extracts from a line for the search text `pat`: the text that follows
the first occurrence of `pat`, up to the next space. -/
def valueAfter (pat line : List Char) : List Char :=
  match qIndexOf pat line with
  | none => []
  | some pos => (line.drop (pos + pat.length)).takeWhile (· ≠ ' ')

/-- The value of the first token with key `k` among the tokens `ts`. -/
def tokenLookup (k : List Char) (ts : List (List Char)) : List Char :=
  match ts.find? (fun t => tokenKey t = some k) with
  | some t => tokenValue t
  | none => []

/-! ## Bootstrap of the data partition -/

/-- The effects `initializeDataPartition` has on its surroundings, in program order. -/
inductive Action where
  | execute (cmd : String)
  | mkdir (path : String)
  | logError (msg : String)
  | write (path : String) (content : String)
  | copy (src dst : String)
  | ownerReadWriteOnly (path : String)
  deriving DecidableEq, Repr

/-- What `initializeDataPartition` reads from its surroundings. -/
structure BootEnv where
  /-- the content of `/proc/cmdline` -/
  cmdline : String
  /-- the exit status of the `mount` command -/
  mountStatus : Int
  /-- the result of `system` for the extraction of `shared.tgz` -/
  extractStatus : Int
  /-- the member `_timezone` -/
  timezone : String
  /-- the member `_keyboardlayout` -/
  keyboardlayout : String
  /-- whether `/boot/wpa_supplicant.conf` exists -/
  wpaSupplicantConf : Bool

def interfacesPath : String := "/mnt/shared/etc/network/interfaces"

def resolvConfPath : String := "/mnt/shared/etc/resolv.conf"

/-- The fixed content of the `interfaces` file. -/
def ifaces : String :=
  "# Static network configuration handled by Berryboot\n" ++
  "iface eth0 inet manual\n\n" ++
  "auto lo\n" ++
  "iface lo inet loopback\n"

/-- The last statement group of `initializeDataPartition`: the static network files. -/
def networkActions (env : BootEnv) : List Action :=
  if bootParam env.cmdline "ipv4" ≠ "" then
    let dns := bootParam env.cmdline "dns"
    let dns := if dns = "" then "8.8.8.8" else dns
    [Action.mkdir "/mnt/shared/etc/network",
     Action.write interfacesPath ifaces,
     Action.write resolvConfPath ("nameserver " ++ dns)]
  else []

/-- The function `Installer::initializeDataPartition`: the effects of one run, in order. -/
def initializeDataPartition (env : BootEnv) (dev : String) : List Action :=
  Action.execute ("mount /dev/" ++ dev ++ " /mnt") ::
  if env.mountStatus ≠ 0 then
    [Action.logError "Error mounting data partition"]
  else
    [Action.mkdir "/mnt/images", Action.mkdir "/mnt/data", Action.mkdir "/mnt/shared",
     Action.mkdir "/mnt/shared/etc", Action.mkdir "/mnt/shared/etc/default",
     Action.mkdir "/mnt/tmp",
     Action.execute "/bin/gzip -dc /boot/shared.tgz | /bin/tar x -C /mnt/shared"] ++
    (if env.extractStatus ≠ 0 then
      [Action.logError ("Error extracting shared.tgz " ++ toString env.extractStatus)]
     else []) ++
    (if env.timezone ≠ "" then
      [Action.write "/mnt/shared/etc/timezone" (toAscii env.timezone ++ "\n")]
     else []) ++
    (if env.keyboardlayout ≠ "" then
      [Action.write "/mnt/shared/etc/default/keyboard"
        ("XKBMODEL=\"pc105\"\n" ++
         "XKBLAYOUT=\"" ++ toAscii env.keyboardlayout ++ "\"\n" ++
         "XKBVARIANT=\"\"\n" ++
         "XKBOPTIONS=\"\"\n")]
     else []) ++
    (if env.wpaSupplicantConf then
      [Action.mkdir "/mnt/shared/etc/wpa_supplicant",
       Action.copy "/boot/wpa_supplicant.conf"
         "/mnt/shared/etc/wpa_supplicant/wpa_supplicant.conf",
       Action.ownerReadWriteOnly "/mnt/shared/etc/wpa_supplicant/wpa_supplicant.conf"]
     else []) ++
    networkActions env

/-- The content a run leaves in the file at `path`: that of its last write there, `none`
when the run does not write the file. -/
def written (path : String) : List Action → Option String
  | [] => none
  | Action.write p c :: rest =>
    match written path rest with
    | some c2 => some c2
    | none => if p = path then some c else none
  | _ :: rest => written path rest

/-! ## Disk space -/

/-- The fields of `struct statvfs` the code reads, all unsigned. -/
structure Statvfs where
  f_bsize : Nat
  f_frsize : Nat
  f_blocks : Nat
  f_bavail : Nat

/-- The function `Installer::availableDiskSpace`; `statvfs` is the query, `none` when it
fails, and the product of the two `double` values is taken exactly. -/
def availableDiskSpace (statvfs : String → Option Statvfs) (path : String) : Int :=
  match statvfs (toAscii path) with
  | none => -1
  | some buf =>
    if buf.f_frsize ≠ 0 then (buf.f_bavail : Int) * (buf.f_frsize : Int)
    else (buf.f_bavail : Int) * (buf.f_bsize : Int)

/-- The function `Installer::diskSpaceInUse`; `statvfs` is the query, `none` when it
fails, and the product of the two `double` values is taken exactly. -/
def diskSpaceInUse (statvfs : String → Option Statvfs) (path : String) : Int :=
  match statvfs (toAscii path) with
  | none => -1
  | some buf =>
    if buf.f_frsize ≠ 0 then (buf.f_blocks : Int) * (buf.f_frsize : Int)
    else (buf.f_blocks : Int) * (buf.f_bsize : Int)

/-! ## The data partition

The state is the content of the two directories `/mnt/images` and `/mnt/data`.  The marker
file of the default image is the entry `default` of `/mnt/data`, next to the data
directories of the images.  A node is a regular file or a directory; symbolic links and
special files are not part of the state.  A call on the file system succeeds whenever the
state allows it: there are no input or output errors and no refused permissions. -/

/-- A node of a directory: a regular file with its content, or a directory with the files
below it by relative path. -/
inductive Node where
  | file (content : String)
  | dir (files : List (String × String))
  deriving DecidableEq, Repr

/-- A directory: its entries by name, in the order the file system enumerates them. -/
abbrev Dir := List (String × Node)

/-- The node a directory holds under a name. -/
def entry : Dir → String → Option Node
  | [], _ => none
  | (n, node) :: rest, name => if n = name then some node else entry rest name

/-- The directory without the entry of a name. -/
def removeEntry : Dir → String → Dir
  | [], _ => []
  | (n, node) :: rest, name =>
    if n = name then removeEntry rest name else (n, node) :: removeEntry rest name

/-- The directory with a name bound to a node. -/
def putEntry (d : Dir) (name : String) (node : Node) : Dir :=
  (name, node) :: removeEntry d name

/-- The names that, appended to the path of a directory and `/`, designate a directory
and no entry: the empty name, `.` and `..`. -/
def isDirName (name : String) : Bool :=
  name = "" || name = "." || name = ".."

/-- The call `QFile::exists` for a name appended to the path of the directory; true for
regular files and for directories. -/
def pathExists (d : Dir) (name : String) : Bool :=
  isDirName name || (entry d name).isSome

/-- The call `QFile::remove`: it unlinks a regular file, and fails on a directory and on a
missing file. -/
def qfileRemove (d : Dir) (name : String) : Dir :=
  if isDirName name then d
  else
    match entry d name with
    | some (Node.file _) => removeEntry d name
    | _ => d

/-- The calls `open(WriteOnly)`, `write`, `close`: the file is created or replaced; the
open fails on a directory and nothing is written. -/
def qfileWrite (d : Dir) (name : String) (content : String) : Dir :=
  if isDirName name then d
  else
    match entry d name with
    | some (Node.dir _) => d
    | _ => putEntry d name (Node.file content)

/-- The calls `open(ReadOnly)`, `readAll`, `close`: the content of a regular file; the
open fails on a directory and `readAll` then returns nothing. -/
def qfileReadAll (d : Dir) (name : String) : String :=
  match entry d name with
  | some (Node.file c) => c
  | _ => ""

/-- The call `QFile::rename` within one directory: refused when the destination exists,
and the system call fails when the source is missing or is the directory itself. -/
def qfileRename (d : Dir) (oldName newName : String) : Dir :=
  if pathExists d newName then d
  else if isDirName oldName then d
  else
    match entry d oldName with
    | some node => putEntry (removeEntry d oldName) newName node
    | none => d

/-- The system call `link` within one directory, `none` when it fails: the source must be
a regular file and the destination must not exist. -/
def link (d : Dir) (oldName newName : String) : Option Dir :=
  if isDirName oldName then none
  else
    match entry d oldName with
    | some (Node.file c) =>
      if pathExists d newName then none else some (putEntry d newName (Node.file c))
    | _ => none

/-- The call `QDir::mkdir`: it creates an empty directory, fails when the path exists. -/
def mkdir (d : Dir) (name : String) : Dir :=
  if pathExists d name then d else putEntry d name (Node.dir [])

/-- The command `rm -rf` for a non-empty name in a directory: the entry goes, file or
directory; `rm` refuses `.` and `..`. -/
def rmRf (d : Dir) (name : String) : Dir :=
  if name = "." ∨ name = ".." then d else removeEntry d name

/-- The external command `cp -a src/* dst`, for names the shell passes on unchanged.  It
changes nothing but what is at `dst`, and leaves a directory a directory and a regular file
a regular file: `intoDir` gives the files below a directory `dst` after the copy,
`overFile` the content of a regular file `dst` after it, each from the source node and
what was there. -/
structure CopyCommand where
  intoDir : Node → List (String × String) → List (String × String)
  overFile : Node → String → String

/-- The command `cp -a src/* dst` run in a directory. -/
def copyInto (cp : CopyCommand) (d : Dir) (src dst : String) : Dir :=
  match entry d src, entry d dst with
  | some a, some (Node.dir files) => putEntry d dst (Node.dir (cp.intoDir a files))
  | some a, some (Node.file c) => putEntry d dst (Node.file (cp.overFile a c))
  | _, _ => d

/-- The call `QFileInfo::isHidden` on Unix: the name starts with a dot. -/
def isHidden (name : String) : Bool :=
  name.data.head? = some '.'

/-- The call `QDir::entryList(QDir::Files)`: the names of the regular files of the
directory; hidden entries are left out because `QDir::Hidden` is not asked for. -/
def entryListFiles (d : Dir) : List String :=
  (d.map Prod.fst).filter fun n =>
    !isHidden n &&
      match entry d n with
      | some (Node.file _) => true
      | _ => false

/-- The order `operator<` of `QString`: by character codes. -/
def qstringLt (a b : String) : Bool :=
  decide (a.data < b.data)

/-- The call `QMap::operator[]` followed by an assignment: the map stays sorted by key and
holds one value per key. -/
def qmapInsert : List (String × String) → String → String → List (String × String)
  | [], k, v => [(k, v)]
  | (k2, v2) :: rest, k, v =>
    if qstringLt k k2 then (k, v) :: (k2, v2) :: rest
    else if k = k2 then (k, v) :: rest
    else (k2, v2) :: qmapInsert rest k v

/-- The state of the data partition. -/
structure Partition where
  /-- the entries of `/mnt/images` -/
  images : Dir
  /-- the entries of `/mnt/data` -/
  data : Dir
  deriving DecidableEq, Repr

/-- The name of the marker file in `/mnt/data`. -/
def markerName : String := "default"

/-- The function `Installer::listInstalledImages`: the map from image name to display name,
as its pairs in key order. -/
def listInstalledImages (s : Partition) : List (String × String) :=
  (entryListFiles s.images).foldl
    (fun images image => qmapInsert images image (imageFilenameToFriendlyName image)) []

/-- The function `Installer::getDefaultImage`.  The text read from the marker file is
looked up under `/mnt/images` as one name, which is what `QFile::exists` does with it when
it contains no `/`; see `markerIsName`. -/
def getDefaultImage (s : Partition) : String :=
  if pathExists s.data markerName then
    let result := qfileReadAll s.data markerName
    if ¬ pathExists s.images result then "" else result
  else ""

/-- The function `Installer::setDefaultImage`. -/
def setDefaultImage (s : Partition) (name : String) : Partition :=
  if name = "" then ⟨s.images, qfileRemove s.data markerName⟩
  else ⟨s.images, qfileWrite s.data markerName (toAscii name)⟩

/-- The function `Installer::renameImage`. -/
def renameImage (s : Partition) (oldname newName : String) : Partition :=
  let s1 := if getDefaultImage s = oldname then setDefaultImage s newName else s
  ⟨qfileRename s1.images oldname newName, qfileRename s1.data oldname newName⟩

/-- The function `Installer::deleteImage`. -/
def deleteImage (s : Partition) (name : String) : Partition :=
  if name = "" then s
  else
    let wasDefaultImage : Bool := getDefaultImage s = name
    let s1 : Partition := ⟨s.images, rmRf s.data name⟩
    let s2 : Partition := ⟨qfileRemove s1.images name, s1.data⟩
    if wasDefaultImage then
      match listInstalledImages s2 with
      | [] => setDefaultImage s2 ""
      | (first, _) :: _ => setDefaultImage s2 first
    else s2

/-- The function `Installer::cloneImage`; `cp` is the external copy command, see
`copyInto`. -/
def cloneImage (cp : CopyCommand) (s : Partition) (oldname newname : String)
    (clonedata : Bool) : Partition :=
  match link s.images (toAscii oldname) (toAscii newname) with
  | some images =>
    let s1 : Partition := ⟨images, s.data⟩
    if clonedata then
      if pathExists s1.data oldname then
        ⟨s1.images, copyInto cp (mkdir s1.data newname) (toAscii oldname) (toAscii newname)⟩
      else s1
    else s1
  | none => s

/-- The keys of the catalog, in key order. -/
def catalogKeys (s : Partition) : List String :=
  (listInstalledImages s).map Prod.fst

/-- A character of the portable file name character set. -/
def safeChar (c : Char) : Bool :=
  c.isAlphanum || c = '.' || c = '_' || c = '-'

/-- A filename-safe name: not empty, made of letters, digits, `.`, `_` and `-`, and not
starting with a dot. -/
def filenameSafe (name : String) : Bool :=
  name ≠ "" && name.data.all safeChar && !isHidden name

/-- A file name proper: a single path component that designates an entry, so not empty,
without `/`, and neither `.` nor `..`. -/
def fileName (name : String) : Bool :=
  !isDirName name && decide ('/' ∉ name.data)

/-- A call of one of the four mutating operations. -/
inductive Op where
  | setDefaultImage (name : String)
  | renameImage (oldname newName : String)
  | cloneImage (oldname newname : String) (clonedata : Bool)
  | deleteImage (name : String)
  deriving DecidableEq, Repr

/-- The state after a call. -/
def applyOp (cp : CopyCommand) (s : Partition) : Op → Partition
  | Op.setDefaultImage name => setDefaultImage s name
  | Op.renameImage oldname newName => renameImage s oldname newName
  | Op.cloneImage oldname newname clonedata => cloneImage cp s oldname newname clonedata
  | Op.deleteImage name => deleteImage s name

/-- The state after a sequence of calls. -/
def run (cp : CopyCommand) (s : Partition) (ops : List Op) : Partition :=
  ops.foldl (applyOp cp) s

/-- A call with filename-safe arguments (the empty name is allowed to clear the default)
that does not create an image under the name of the marker file. -/
def safeOp : Op → Bool
  | Op.setDefaultImage name => name = "" || filenameSafe name
  | Op.renameImage oldname newName =>
    filenameSafe oldname && filenameSafe newName && newName ≠ markerName
  | Op.cloneImage oldname newname _ =>
    filenameSafe oldname && filenameSafe newname && newname ≠ markerName
  | Op.deleteImage name => filenameSafe name

/-- A regular catalog: every entry of `/mnt/images` is a regular file with a filename-safe
name, and the marker file, if it is there, holds a filename-safe name or nothing. -/
def regularCatalog (s : Partition) : Bool :=
  (s.images.all fun e =>
    filenameSafe e.1 &&
      match e.2 with
      | Node.file _ => true
      | Node.dir _ => false) &&
  match entry s.data markerName with
  | some (Node.file m) => m = "" || filenameSafe m
  | _ => true

/-- A copy command for examples: the files of a source directory are added to those of a
destination directory, and a regular file at the destination is left as it is. -/
def cpFiles : CopyCommand :=
  ⟨fun src files =>
      match src with
      | Node.dir added => added ++ files
      | Node.file _ => files,
    fun _ c => c⟩

/-- A copy command for examples that, on top of `cpFiles`, replaces a regular file at the
destination by the only file of the source directory, as `cp` does when the pattern
`src/*` matches one regular file. -/
def cpSingle : CopyCommand :=
  ⟨cpFiles.intoDir,
    fun src c =>
      match src with
      | Node.dir [(name, content)] => if '/' ∈ name.data then c else content
      | _ => c⟩

/-! ## States for examples -/

/-- The catalog of the scenario of the specification: the images `raspbian.img` and
`my_os.img`, no default, no data. -/
def scenario : Partition :=
  ⟨[("raspbian.img", Node.file "R"), ("my_os.img", Node.file "M")], []⟩

/-- A catalog with the single image `a.img`, no default, no data. -/
def oneImage : Partition :=
  ⟨[("a.img", Node.file "A")], []⟩

/-- The images `a.img` and `b.img`, the default `a.img`, and a data directory for
`a.img`. -/
def twoImages : Partition :=
  ⟨[("a.img", Node.file "A"), ("b.img", Node.file "B")],
    [(markerName, Node.file "a.img"), ("a.img", Node.dir [("hostname", "pi")])]⟩

/-- The image named `default`, which is the default. -/
def imageNamedDefault : Partition :=
  ⟨[("default", Node.file "D")], [(markerName, Node.file "default")]⟩

/-! ## Facts about the string primitives -/

theorem qLastIndexOf_eq_none (pat : List Char) (hp : pat ≠ []) (s : List Char) :
    qLastIndexOf pat s = none ↔ ¬ pat <:+: s := by
  induction s with
  | nil =>
    cases pat with
    | nil => exact absurd rfl hp
    | cons p ps => simp [qLastIndexOf, List.isPrefixOf]
  | cons c cs ih =>
    rw [List.infix_cons_iff, qLastIndexOf]
    cases h : qLastIndexOf pat cs with
    | some i =>
      have hin : pat <:+: cs := by
        by_contra hc
        rw [ih.mpr hc] at h
        cases h
      simp [hin]
    | none =>
      have hnot : ¬ pat <:+: cs := ih.mp h
      simp [hnot, List.isPrefixOf_iff_prefix]

theorem qLastIndexOf_some (pat : List Char) (hp : pat ≠ []) :
    ∀ (s : List Char) (i : Nat), qLastIndexOf pat s = some i →
      pat <+: s.drop i ∧ ¬ pat <:+: s.drop (i + 1) := by
  intro s
  induction s with
  | nil =>
    intro i h
    cases pat with
    | nil => exact absurd rfl hp
    | cons p ps => simp [qLastIndexOf, List.isPrefixOf] at h
  | cons c cs ih =>
    intro i h
    rw [qLastIndexOf] at h
    cases hcs : qLastIndexOf pat cs with
    | some j =>
      rw [hcs] at h
      simp only [Option.some.injEq] at h
      subst h
      simpa using ih j hcs
    | none =>
      rw [hcs] at h
      by_cases hpre : pat.isPrefixOf (c :: cs) = true
      · rw [if_pos hpre] at h
        simp only [Option.some.injEq] at h
        subst h
        refine ⟨by simpa using List.isPrefixOf_iff_prefix.mp hpre, ?_⟩
        simpa using (qLastIndexOf_eq_none pat hp cs).mp hcs
      · rw [if_neg hpre] at h
        cases h

theorem qLastIndexOf_append (pat : List Char) (hp : pat ≠ []) (t : List Char)
    (hlast : ¬ pat <:+: (pat ++ t).tail) :
    ∀ r : List Char, qLastIndexOf pat (r ++ pat ++ t) = some r.length := by
  intro r
  induction r with
  | nil =>
    cases pat with
    | nil => exact absurd rfl hp
    | cons p ps =>
      have hnone : qLastIndexOf (p :: ps) (ps ++ t) = none :=
        (qLastIndexOf_eq_none (p :: ps) hp (ps ++ t)).mpr (by simpa using hlast)
      have hpre : (p :: ps).isPrefixOf (p :: (ps ++ t)) = true :=
        List.isPrefixOf_iff_prefix.mpr ⟨t, by simp⟩
      show qLastIndexOf (p :: ps) (p :: (ps ++ t)) = some 0
      rw [qLastIndexOf, hnone]
      simp only [hpre, if_true]
  | cons a r ih =>
    show qLastIndexOf pat (a :: (r ++ pat ++ t)) = some (r.length + 1)
    rw [qLastIndexOf, ih]

theorem not_mem_of_not_singleton_infix (c : Char) (s : List Char) (h : ¬ [c] <:+: s) :
    c ∉ s := by
  intro hc
  obtain ⟨a, b, rfl⟩ := List.mem_iff_append.mp hc
  exact h ⟨a, b, by simp⟩

theorem not_singleton_infix_of_not_mem (c : Char) (s : List Char) (h : c ∉ s) :
    ¬ [c] <:+: s := by
  rintro ⟨a, b, rfl⟩
  exact h (by simp)

theorem takeWhile_append_stop (p : Char → Bool) (b : Char) (hb : p b = false) :
    ∀ (l m : List Char), (∀ a ∈ l, p a = true) → (l ++ b :: m).takeWhile p = l := by
  intro l
  induction l with
  | nil => intro m _; simp [List.takeWhile_cons, hb]
  | cons a l ih =>
    intro m h
    have ha : p a = true := h a (by simp)
    rw [List.cons_append, List.takeWhile_cons, if_pos ha,
      ih m (fun x hx => h x (by simp [hx]))]

/-! ## Facts about display names -/

theorem imgExt_ne_nil : imgExt ≠ [] := by decide

theorem slash_segment (n : List Char) :
    (match qLastIndexOf ['/'] n with
      | some slashpos => qMid n (slashpos + 1)
      | none => n) = n.rtakeWhile (· ≠ '/') := by
  cases h : qLastIndexOf ['/'] n with
  | none =>
    have hnot := (qLastIndexOf_eq_none ['/'] (by simp) n).mp h
    have hmem := not_mem_of_not_singleton_infix '/' n hnot
    symm
    apply List.rtakeWhile_eq_self_iff.mpr
    intro x hx
    have : x ≠ '/' := fun e => hmem (e ▸ hx)
    simpa using this
  | some i =>
    obtain ⟨⟨t, ht⟩, hno⟩ := qLastIndexOf_some ['/'] (by simp) n i h
    have hdrop : n.drop (i + 1) = t := by
      have e : n.drop (i + 1) = (n.drop i).drop 1 := by
        rw [List.drop_drop]
      rw [e, ← ht]
      rfl
    have hn : n = n.take i ++ '/' :: t := by
      conv_lhs => rw [← List.take_append_drop i n, ← ht]
      rfl
    have htmem : ∀ a ∈ t.reverse, (fun c : Char => decide (c ≠ '/')) a = true := by
      intro a ha
      have hat : a ∈ t := List.mem_reverse.mp ha
      have : a ≠ '/' := by
        intro e
        subst e
        exact not_mem_of_not_singleton_infix '/' _ hno (hdrop ▸ hat)
      simpa using this
    show n.drop (i + 1) = ((n.reverse).takeWhile (· ≠ '/')).reverse
    rw [hdrop]
    conv_rhs => rw [hn]
    rw [List.reverse_append, List.reverse_cons, List.append_assoc, List.singleton_append,
      takeWhile_append_stop _ '/' (by simp) _ _ htmem, List.reverse_reverse]

theorem friendlyChars_eq (x : List Char) :
    friendlyChars x =
      match qLastIndexOf imgExt (displaySegment x) with
      | some imgpos => (displaySegment x).take imgpos
      | none => displaySegment x := by
  unfold friendlyChars displaySegment
  simp only [slash_segment, qMidLen, List.drop_zero]

theorem underscore_not_mem_qReplace (x : List Char) : '_' ∉ qReplace '_' ' ' x := by
  unfold qReplace
  intro h
  obtain ⟨c, _, hc⟩ := List.mem_map.mp h
  by_cases e : c = '_'
  · rw [if_pos e] at hc
    exact absurd hc (by decide)
  · rw [if_neg e] at hc
    exact e hc

theorem qReplace_of_not_mem (y : List Char) (h : '_' ∉ y) : qReplace '_' ' ' y = y := by
  unfold qReplace
  induction y with
  | nil => rfl
  | cons a y ih =>
    have ha : a ≠ '_' := fun e => h (by simp [e])
    have hy : '_' ∉ y := fun e => h (by simp [e])
    rw [List.map_cons, if_neg ha, ih hy]

theorem mem_displaySegment (x : List Char) (c : Char) (h : c ∈ displaySegment x) :
    c ≠ '/' ∧ c ≠ '_' := by
  unfold displaySegment at h
  have h1 : c ∈ ((qReplace '_' ' ' x).reverse.takeWhile (· ≠ '/')) :=
    List.mem_reverse.mp h
  constructor
  · simpa using List.mem_takeWhile_imp h1
  · intro e
    subst e
    exact underscore_not_mem_qReplace x
      (List.mem_reverse.mp ((List.takeWhile_sublist _).subset h1))

theorem mem_friendlyChars (x : List Char) (c : Char) (h : c ∈ friendlyChars x) :
    c ≠ '/' ∧ c ≠ '_' := by
  rw [friendlyChars_eq] at h
  cases hq : qLastIndexOf imgExt (displaySegment x) with
  | none =>
    rw [hq] at h
    exact mem_displaySegment x c h
  | some i =>
    rw [hq] at h
    exact mem_displaySegment x c (List.mem_of_mem_take h)

theorem displaySegment_of_clean (y : List Char) (h : ∀ c ∈ y, c ≠ '/' ∧ c ≠ '_') :
    displaySegment y = y := by
  unfold displaySegment
  rw [qReplace_of_not_mem y (fun hm => (h _ hm).2 rfl)]
  apply List.rtakeWhile_eq_self_iff.mpr
  intro c hc
  simpa using (h c hc).1

theorem friendlyChars_twice (x : List Char) :
    friendlyChars (friendlyChars x) = friendlyChars x ↔ ¬ imgExt <:+: friendlyChars x := by
  have hseg : displaySegment (friendlyChars x) = friendlyChars x :=
    displaySegment_of_clean _ (mem_friendlyChars x)
  generalize friendlyChars x = y at hseg
  rw [friendlyChars_eq y, hseg]
  cases hq : qLastIndexOf imgExt y with
  | none =>
    have := (qLastIndexOf_eq_none imgExt imgExt_ne_nil y).mp hq
    simp [this]
  | some i =>
    obtain ⟨hpre, _⟩ := qLastIndexOf_some imgExt imgExt_ne_nil y i hq
    have hin : imgExt <:+: y := by
      obtain ⟨t, ht⟩ := hpre
      exact ⟨y.take i, t, by rw [List.append_assoc, ht, List.take_append_drop]⟩
    have hlen : i + 4 ≤ y.length := by
      have := hpre.length_le
      simp only [List.length_drop] at this
      have h4 : imgExt.length = 4 := rfl
      omega
    have hne : y.take i ≠ y := by
      intro e
      have := congrArg List.length e
      simp only [List.length_take] at this
      omega
    simp [hin, hne]

/-! ## Facts about boot parameters -/

theorem qIndexOf_eq_none (pat : List Char) (hp : pat ≠ []) (s : List Char) :
    qIndexOf pat s = none ↔ ¬ pat <:+: s := by
  induction s with
  | nil =>
    cases pat with
    | nil => exact absurd rfl hp
    | cons p ps => simp [qIndexOf, List.isPrefixOf]
  | cons c cs ih =>
    rw [List.infix_cons_iff, qIndexOf]
    by_cases hpre : pat.isPrefixOf (c :: cs) = true
    · rw [if_pos hpre]
      simp [List.isPrefixOf_iff_prefix.mp hpre]
    · rw [if_neg hpre]
      have : ¬ pat <+: c :: cs := fun h => hpre (List.isPrefixOf_iff_prefix.mpr h)
      simp [this, ih]

theorem qIndexOf_at_start (pat s : List Char) (h : pat <+: s) : qIndexOf pat s = some 0 := by
  have hb := List.isPrefixOf_iff_prefix.mpr h
  cases s with
  | nil => simp [qIndexOf, hb]
  | cons c cs => simp [qIndexOf, hb]

theorem qIndexOf_skip (pat l : List Char) :
    ∀ a : List Char,
      (∀ pre post : List Char, a ++ l = pre ++ pat ++ post → a.length ≤ pre.length) →
      qIndexOf pat (a ++ l) = (qIndexOf pat l).map (· + a.length) := by
  intro a
  induction a with
  | nil => intro _; simp
  | cons x a ih =>
    intro h
    have hnot : ¬ pat.isPrefixOf (x :: (a ++ l)) = true := by
      intro hb
      obtain ⟨post, hpost⟩ := List.isPrefixOf_iff_prefix.mp hb
      have := h [] post (by simpa using hpost.symm)
      simp at this
    have ih2 := ih (fun pre post e => by
      have := h (x :: pre) post (by simp [e])
      simpa using this)
    show qIndexOf pat (x :: (a ++ l)) = _
    rw [qIndexOf, if_neg hnot, ih2, Option.map_map]
    congr 1

theorem qIndexOf_space (m : List Char) :
    (match qIndexOf [' '] m with
      | some j => m.take j
      | none => m) = m.takeWhile (· ≠ ' ') := by
  induction m with
  | nil => simp [qIndexOf, List.isPrefixOf]
  | cons c cs ih =>
    rw [qIndexOf]
    by_cases hc : c = ' '
    · subst hc
      simp [List.isPrefixOf]
    · have hne : ¬ [' '].isPrefixOf (c :: cs) = true := by
        simp [List.isPrefixOf, Ne.symm hc]
      rw [if_neg hne, List.takeWhile_cons, if_pos (by simpa using hc), ← ih]
      cases qIndexOf [' '] cs <;> simp

theorem bootParam_data (cmdline k : String) :
    (bootParam cmdline k).data = valueAfter (k.data ++ ['=']) (bootoptions cmdline).data := by
  unfold bootParam valueAfter
  simp only []
  cases hq : qIndexOf (k.data ++ ['=']) (bootoptions cmdline).data with
  | none => rfl
  | some pos =>
    simp only [qIndexOfFrom, qMidLen, qMid]
    rw [← qIndexOf_space]
    cases hs : qIndexOf [' '] (List.drop (pos + (k.data ++ ['=']).length)
        (bootoptions cmdline).data) with
    | none => simp
    | some j =>
      simp only [Option.map_some']
      congr 1
      omega

theorem dropWhile_append_stop (p : Char → Bool) (b : Char) (hb : p b = false) :
    ∀ (l m : List Char), (∀ a ∈ l, p a = true) → (l ++ b :: m).dropWhile p = b :: m := by
  intro l
  induction l with
  | nil => intro m _; simp [List.dropWhile_cons, hb]
  | cons a l ih =>
    intro m h
    have ha : p a = true := h a (by simp)
    rw [List.cons_append, List.dropWhile_cons, if_pos ha,
      ih m (fun x hx => h x (by simp [hx]))]

theorem token_of_key (k : List Char) (hk : '=' ∉ k) (v : List Char) :
    tokenKey (k ++ '=' :: v) = some k ∧ tokenValue (k ++ '=' :: v) = v := by
  have hall : ∀ a ∈ k, (fun c : Char => decide (c ≠ '=')) a = true := by
    intro a ha
    have : a ≠ '=' := fun e => hk (e ▸ ha)
    simpa using this
  constructor
  · unfold tokenKey
    rw [if_pos (by simp), takeWhile_append_stop _ '=' (by simp) k v hall]
  · unfold tokenValue
    rw [dropWhile_append_stop _ '=' (by simp) k v hall]
    rfl

theorem key_of_token (k t : List Char) (h : tokenKey t = some k) :
    t = k ++ '=' :: tokenValue t := by
  unfold tokenKey at h
  by_cases hm : '=' ∈ t
  · rw [if_pos hm] at h
    simp only [Option.some.injEq] at h
    unfold tokenValue
    rw [← h]
    clear h
    induction t with
    | nil => simp at hm
    | cons a t ih =>
      by_cases ha : a = '='
      · subst ha
        simp [List.takeWhile_cons, List.dropWhile_cons]
      · have hm2 : '=' ∈ t := by
          rcases List.mem_cons.mp hm with e | e
          · exact absurd e.symm ha
          · exact e
        have hd : decide (a ≠ '=') = true := by simpa using ha
        rw [List.takeWhile_cons, if_pos hd, List.dropWhile_cons, if_pos hd, List.cons_append,
          ← ih hm2]
  · rw [if_neg hm] at h
    cases h

theorem bootTokens_no_space (line : List Char) : ∀ t ∈ bootTokens line, ' ' ∉ t := by
  unfold bootTokens List.splitOn
  induction line with
  | nil => simp [List.splitOnP_nil]
  | cons c cs ih =>
    rw [List.splitOnP_cons]
    by_cases hc : (c == ' ') = true
    · rw [if_pos hc]
      intro t ht
      rcases List.mem_cons.mp ht with e | e
      · simp [e]
      · exact ih t e
    · rw [if_neg hc]
      have hne : c ≠ ' ' := by simpa using hc
      cases hs : List.splitOnP (fun x => x == ' ') cs with
      | nil => simp [List.modifyHead]
      | cons t0 ts0 =>
        rw [hs] at ih
        intro t ht
        simp only [List.modifyHead, List.mem_cons] at ht
        rcases ht with e | e
        · subst e
          intro hmem
          rcases List.mem_cons.mp hmem with e2 | e2
          · exact hne e2.symm
          · exact ih t0 (by simp) e2
        · exact ih t (by simp [e])

theorem bootTokens_ne_nil (line : List Char) : bootTokens line ≠ [] :=
  List.splitOnP_ne_nil _ _

theorem bootTokens_intercalate (line : List Char) :
    [' '].intercalate (bootTokens line) = line :=
  List.intercalate_splitOn line ' '

theorem intercalate_cons_cons (t t2 : List Char) (ts : List (List Char)) :
    [' '].intercalate (t :: t2 :: ts) = t ++ ' ' :: [' '].intercalate (t2 :: ts) := by
  simp [List.intercalate, List.intersperse]

theorem intercalate_single (t : List Char) : [' '].intercalate [t] = t := by
  simp [List.intercalate, List.intersperse]

/-- A text without a space that starts `t ++ tail`, where `tail` is empty or starts with a
space, starts `t`. -/
theorem prefix_token (pat t tail : List Char) (hsp : ' ' ∉ pat)
    (htail : tail = [] ∨ ∃ l, tail = ' ' :: l) (h : pat <+: t ++ tail) : pat <+: t := by
  by_cases hlen : pat.length ≤ t.length
  · exact List.prefix_of_prefix_length_le h (List.prefix_append t tail) hlen
  · exfalso
    have ht : t <+: pat :=
      List.prefix_of_prefix_length_le (List.prefix_append t tail) h (by omega)
    obtain ⟨w, hw⟩ := ht
    obtain ⟨post, hpost⟩ := h
    have hwne : w ≠ [] := by
      intro e
      subst e
      simp at hw
      subst hw
      exact hlen (le_refl _)
    rw [← hw, List.append_assoc] at hpost
    have htl : w ++ post = tail := List.append_cancel_left hpost
    rcases htail with e | ⟨l, e⟩
    · subst e
      simp at htl
      exact hwne htl.1
    · subst e
      cases w with
      | nil => exact hwne rfl
      | cons x w =>
        simp only [List.cons_append, List.cons.injEq] at htl
        apply hsp
        rw [← hw, htl.1]
        simp

theorem valueAfter_hit (k t tail : List Char) (ht : ' ' ∉ t)
    (htail : tail = [] ∨ ∃ l, tail = ' ' :: l) (hkey : tokenKey t = some k) :
    valueAfter (k ++ ['=']) (t ++ tail) = tokenValue t := by
  have htk := key_of_token k t hkey
  generalize tokenValue t = v at htk ⊢
  subst htk
  have e : k ++ '=' :: v ++ tail = (k ++ ['=']) ++ (v ++ tail) := by simp
  have hpre : k ++ ['='] <+: k ++ '=' :: v ++ tail := ⟨v ++ tail, e.symm⟩
  have hdrop : (k ++ '=' :: v ++ tail).drop (k ++ ['=']).length = v ++ tail := by
    rw [e, List.drop_left]
  have hv : ∀ a ∈ v, (fun c : Char => decide (c ≠ ' ')) a = true := by
    intro a ha
    have : a ≠ ' ' := fun e => ht (by subst e; simp [ha])
    simpa using this
  unfold valueAfter
  rw [qIndexOf_at_start _ _ hpre]
  simp only [Nat.zero_add]
  rw [hdrop]
  rcases htail with e | ⟨l, e⟩
  · subst e
    rw [List.append_nil]
    exact List.takeWhile_eq_self_iff.mpr hv
  · subst e
    exact takeWhile_append_stop _ ' ' (by simp) _ _ hv

theorem occurrence_after_token (pat t tail : List Char) (hpsp : ' ' ∉ pat) (ht : ' ' ∉ t)
    (htail : tail = [] ∨ ∃ l, tail = ' ' :: l) (hnp : ¬ pat <+: t)
    (hno : ¬ pat <:+: t.tail) :
    ∀ pre post : List Char, t ++ tail = pre ++ pat ++ post → t.length < pre.length := by
  intro pre post e
  by_contra hle
  have hle : pre.length ≤ t.length := by omega
  have hpt : pre <+: t :=
    List.prefix_of_prefix_length_le ⟨pat ++ post, by rw [e, List.append_assoc]⟩
      (List.prefix_append t tail) hle
  obtain ⟨w, hw⟩ := hpt
  subst hw
  have hw : pat ++ post = w ++ tail := by
    have : pre ++ (w ++ tail) = pre ++ (pat ++ post) := by
      simpa [List.append_assoc] using e
    exact (List.append_cancel_left this).symm
  have hpw : pat <+: w :=
    prefix_token pat w tail hpsp htail ⟨post, hw⟩
  cases pre with
  | nil => exact hnp (by simpa using hpw)
  | cons x pre =>
    apply hno
    obtain ⟨z, hz⟩ := hpw
    exact ⟨pre, z, by simp [← hz]⟩

theorem valueAfter_skip (pat a l : List Char)
    (h : ∀ pre post : List Char, a ++ l = pre ++ pat ++ post → a.length ≤ pre.length) :
    valueAfter pat (a ++ l) = valueAfter pat l := by
  unfold valueAfter
  rw [qIndexOf_skip pat l a h]
  cases qIndexOf pat l with
  | none => rfl
  | some p =>
    simp only [Option.map_some']
    have e : p + a.length + pat.length = a.length + (p + pat.length) := by omega
    rw [e, ← List.drop_drop, List.drop_left]

theorem valueAfter_tokens (k : List Char) (hsp : ' ' ∉ k) (heq : '=' ∉ k) :
    ∀ ts : List (List Char), ts ≠ [] → (∀ t ∈ ts, ' ' ∉ t) →
      (∀ t ∈ ts, ¬ (k ++ ['=']) <:+: t.tail) →
      valueAfter (k ++ ['=']) ([' '].intercalate ts) = tokenLookup k ts := by
  intro ts
  induction ts with
  | nil => intro h; exact absurd rfl h
  | cons t ts ih =>
    intro _ hns hal
    have hpsp : ' ' ∉ k ++ ['='] := by simp [hsp]
    have hpne : k ++ ['='] ≠ [] := by simp
    have ht : ' ' ∉ t := hns t (by simp)
    have hno : ¬ (k ++ ['=']) <:+: t.tail := hal t (by simp)
    by_cases hkey : tokenKey t = some k
    · have hlook : tokenLookup k (t :: ts) = tokenValue t := by
        simp [tokenLookup, List.find?_cons, hkey]
      rw [hlook]
      cases ts with
      | nil =>
        rw [intercalate_single]
        simpa using valueAfter_hit k t [] ht (Or.inl rfl) hkey
      | cons t2 ts2 =>
        rw [intercalate_cons_cons]
        exact valueAfter_hit k t _ ht (Or.inr ⟨_, rfl⟩) hkey
    · have hnp : ¬ k ++ ['='] <+: t := by
        rintro ⟨v, hv⟩
        apply hkey
        have : t = k ++ '=' :: v := by simpa using hv.symm
        rw [this]
        exact (token_of_key k heq v).1
      have hlook : tokenLookup k (t :: ts) = tokenLookup k ts := by
        simp [tokenLookup, List.find?_cons, hkey]
      rw [hlook]
      cases ts with
      | nil =>
        rw [intercalate_single]
        have hocc := occurrence_after_token (k ++ ['=']) t [] hpsp ht (Or.inl rfl) hnp hno
        have hnone : qIndexOf (k ++ ['=']) t = none := by
          rw [qIndexOf_eq_none _ hpne]
          rintro ⟨pre, post, e⟩
          have h1 := hocc pre post (by simpa using e.symm)
          have h2 := congrArg List.length e
          simp only [List.length_append] at h2
          omega
        simp [valueAfter, hnone, tokenLookup]
      | cons t2 ts2 =>
        rw [intercalate_cons_cons]
        have hocc := occurrence_after_token (k ++ ['=']) t (' ' :: [' '].intercalate (t2 :: ts2))
          hpsp ht (Or.inr ⟨_, rfl⟩) hnp hno
        have hskip : valueAfter (k ++ ['=']) ((t ++ [' ']) ++ [' '].intercalate (t2 :: ts2)) =
            valueAfter (k ++ ['=']) ([' '].intercalate (t2 :: ts2)) := by
          apply valueAfter_skip
          intro pre post e
          have := hocc pre post (by simpa using e)
          simp only [List.length_append, List.length_singleton]
          omega
        have e0 : t ++ ' ' :: [' '].intercalate (t2 :: ts2) =
            (t ++ [' ']) ++ [' '].intercalate (t2 :: ts2) := by simp
        rw [e0, hskip]
        exact ih (by simp) (fun x hx => hns x (by simp [hx]))
          (fun x hx => hal x (by simp [hx]))

/-- On a line in which `k=` only occurs at the start of tokens, `bootParam` is the token
lookup. -/
theorem bootParam_eq_reference (cmdline k : String) (hk : KeyName k)
    (hal : TokenAligned k (bootoptions cmdline)) :
    bootParam cmdline k = bootParamReference (bootoptions cmdline) k := by
  have h1 := bootParam_data cmdline k
  have h2 := valueAfter_tokens k.data hk.1 hk.2 (bootTokens (bootoptions cmdline).data)
    (bootTokens_ne_nil _) (bootTokens_no_space _) hal
  rw [bootTokens_intercalate] at h2
  have h3 : (bootParamReference (bootoptions cmdline) k).data =
      tokenLookup k.data (bootTokens (bootoptions cmdline).data) := by
    unfold bootParamReference findToken tokenLookup
    cases List.find? (fun t => decide (tokenKey t = some k.data))
      (bootTokens (bootoptions cmdline).data) <;> rfl
  have h4 : (bootParam cmdline k).data = (bootParamReference (bootoptions cmdline) k).data := by
    rw [h1, h2, h3]
  exact String.ext h4

/-! ## Facts about the bootstrap -/

theorem written_append (p : String) (a b : List Action) :
    written p (a ++ b) =
      match written p b with
      | some c => some c
      | none => written p a := by
  induction a with
  | nil => cases h : written p b <;> simp [written, h]
  | cons x a ih =>
    cases x with
    | write q c =>
      show written p (Action.write q c :: (a ++ b)) = _
      rw [written, ih]
      cases written p b <;> simp [written]
    | execute _ => simpa [written] using ih
    | mkdir _ => simpa [written] using ih
    | logError _ => simpa [written] using ih
    | copy _ _ => simpa [written] using ih
    | ownerReadWriteOnly _ => simpa [written] using ih

theorem written_append_none (p : String) (a b : List Action) (h : written p a = none) :
    written p (a ++ b) = written p b := by
  rw [written_append, h]
  cases written p b <;> rfl

/-- On a run whose mount succeeds, the two network files are written by the last
statement group only. -/
theorem written_network (env : BootEnv) (dev : String) (hm : env.mountStatus = 0)
    (p : String) (hp : p = resolvConfPath ∨ p = interfacesPath) :
    written p (initializeDataPartition env dev) = written p (networkActions env) := by
  unfold initializeDataPartition
  rw [if_neg (by simp [hm])]
  simp only [written]
  apply written_append_none
  rcases hp with rfl | rfl
  · by_cases h1 : env.extractStatus ≠ 0 <;> by_cases h2 : env.timezone ≠ "" <;>
      by_cases h3 : env.keyboardlayout ≠ "" <;> by_cases h4 : env.wpaSupplicantConf = true <;>
      simp [h1, h2, h3, h4, written, resolvConfPath]
  · by_cases h1 : env.extractStatus ≠ 0 <;> by_cases h2 : env.timezone ≠ "" <;>
      by_cases h3 : env.keyboardlayout ≠ "" <;> by_cases h4 : env.wpaSupplicantConf = true <;>
      simp [h1, h2, h3, h4, written, interfacesPath]

/-! ## Facts about directories -/

theorem entry_removeEntry_same (d : Dir) (name : String) :
    entry (removeEntry d name) name = none := by
  induction d with
  | nil => rfl
  | cons e d ih =>
    obtain ⟨n, node⟩ := e
    unfold removeEntry
    by_cases h : n = name
    · rw [if_pos h]
      exact ih
    · rw [if_neg h]
      unfold entry
      rw [if_neg h]
      exact ih

theorem entry_removeEntry_ne (d : Dir) (name m : String) (hm : m ≠ name) :
    entry (removeEntry d name) m = entry d m := by
  induction d with
  | nil => rfl
  | cons e d ih =>
    obtain ⟨n, node⟩ := e
    unfold removeEntry
    by_cases h : n = name
    · have hnm : n ≠ m := fun e => hm (e ▸ h)
      rw [if_pos h, ih]
      conv_rhs => unfold entry
      rw [if_neg hnm]
    · rw [if_neg h]
      unfold entry
      by_cases h2 : n = m
      · rw [if_pos h2, if_pos h2]
      · rw [if_neg h2, if_neg h2]
        exact ih

theorem entry_putEntry_same (d : Dir) (name : String) (node : Node) :
    entry (putEntry d name node) name = some node := by
  simp [putEntry, entry]

theorem entry_putEntry_ne (d : Dir) (name m : String) (node : Node) (hm : m ≠ name) :
    entry (putEntry d name node) m = entry d m := by
  simp [putEntry, entry, Ne.symm hm, entry_removeEntry_ne d name m hm]

theorem mem_of_entry (d : Dir) (n : String) (node : Node) (h : entry d n = some node) :
    (n, node) ∈ d := by
  induction d with
  | nil => cases h
  | cons e d ih =>
    obtain ⟨n2, node2⟩ := e
    unfold entry at h
    by_cases hn : n2 = n
    · rw [if_pos hn] at h
      cases h
      simp [hn]
    · rw [if_neg hn] at h
      exact List.mem_cons_of_mem _ (ih h)

theorem mem_names_of_entry (d : Dir) (n : String) (node : Node) (h : entry d n = some node) :
    n ∈ d.map Prod.fst :=
  List.mem_map.mpr ⟨(n, node), mem_of_entry d n node h, rfl⟩

theorem mem_removeEntry (d : Dir) (name : String) (e : String × Node)
    (h : e ∈ removeEntry d name) : e ∈ d := by
  induction d with
  | nil => exact h
  | cons e2 d ih =>
    obtain ⟨n, node⟩ := e2
    unfold removeEntry at h
    by_cases hn : n = name
    · rw [if_pos hn] at h
      exact List.mem_cons_of_mem _ (ih h)
    · rw [if_neg hn] at h
      rcases List.mem_cons.mp h with h | h
      · exact h ▸ List.mem_cons_self _ _
      · exact List.mem_cons_of_mem _ (ih h)

theorem mem_putEntry (d : Dir) (name : String) (node : Node) (e : String × Node)
    (h : e ∈ putEntry d name node) : e = (name, node) ∨ e ∈ d := by
  rcases List.mem_cons.mp h with h | h
  · exact Or.inl h
  · exact Or.inr (mem_removeEntry d name e h)

theorem isDirName_marker : isDirName markerName = false := by decide

theorem isDirName_of_filenameSafe (n : String) (h : filenameSafe n = true) :
    isDirName n = false ∧ n ≠ "" ∧ isHidden n = false := by
  unfold filenameSafe at h
  simp only [Bool.and_eq_true, decide_eq_true_eq, Bool.not_eq_true', ne_eq] at h
  obtain ⟨⟨h1, _⟩, h3⟩ := h
  refine ⟨?_, h1, h3⟩
  unfold isDirName
  simp only [Bool.or_eq_false_iff, decide_eq_false_iff_not]
  refine ⟨⟨h1, ?_⟩, ?_⟩
  · intro e
    rw [e] at h3
    exact absurd h3 (by decide)
  · intro e
    rw [e] at h3
    exact absurd h3 (by decide)

/-! ## Facts about the catalog -/

theorem mem_keys_qmapInsert (m : List (String × String)) (k v x : String) :
    x ∈ (qmapInsert m k v).map Prod.fst ↔ x = k ∨ x ∈ m.map Prod.fst := by
  induction m with
  | nil => simp [qmapInsert]
  | cons e m ih =>
    obtain ⟨k2, v2⟩ := e
    unfold qmapInsert
    by_cases h1 : qstringLt k k2 = true
    · rw [if_pos h1]
      simp
    · rw [if_neg h1]
      by_cases h2 : k = k2
      · rw [if_pos h2]
        simp only [List.map_cons, List.mem_cons, h2]
        tauto
      · rw [if_neg h2]
        simp only [List.map_cons, List.mem_cons, ih]
        tauto

theorem mem_keys_foldl (f : String → String) (l : List String) :
    ∀ (acc : List (String × String)) (x : String),
      x ∈ (l.foldl (fun images image => qmapInsert images image (f image)) acc).map Prod.fst ↔
        x ∈ acc.map Prod.fst ∨ x ∈ l := by
  induction l with
  | nil => intro acc x; simp
  | cons a l ih =>
    intro acc x
    rw [List.foldl_cons, ih, mem_keys_qmapInsert, List.mem_cons]
    tauto

theorem mem_entryListFiles (d : Dir) (n : String) :
    n ∈ entryListFiles d ↔ isHidden n = false ∧ ∃ c, entry d n = some (Node.file c) := by
  unfold entryListFiles
  rw [List.mem_filter]
  constructor
  · rintro ⟨_, h⟩
    simp only [Bool.and_eq_true, Bool.not_eq_true'] at h
    refine ⟨h.1, ?_⟩
    cases he : entry d n with
    | none => rw [he] at h; simp at h
    | some node =>
      cases node with
      | file c => exact ⟨c, rfl⟩
      | dir fs => rw [he] at h; simp at h
  · rintro ⟨h1, c, h2⟩
    exact ⟨mem_names_of_entry d n _ h2, by simp [h1, h2]⟩

theorem mem_catalogKeys (s : Partition) (n : String) :
    n ∈ catalogKeys s ↔ isHidden n = false ∧ ∃ c, entry s.images n = some (Node.file c) := by
  unfold catalogKeys listInstalledImages
  rw [mem_keys_foldl, ← mem_entryListFiles]
  simp

theorem catalogKeys_images (s t : Partition) (h : s.images = t.images) :
    catalogKeys s = catalogKeys t := by
  unfold catalogKeys listInstalledImages
  rw [h]

theorem setDefaultImage_images (s : Partition) (n : String) :
    (setDefaultImage s n).images = s.images := by
  unfold setDefaultImage
  split <;> rfl

/-! ## Facts about the default image -/

theorem getDefaultImage_eq (s : Partition) :
    getDefaultImage s =
      match entry s.data markerName with
      | some (Node.file m) => if pathExists s.images m then m else ""
      | _ => "" := by
  unfold getDefaultImage qfileReadAll
  cases h : entry s.data markerName with
  | none => simp [pathExists, isDirName_marker, h]
  | some node =>
    have hm : pathExists s.data markerName = true := by simp [pathExists, h]
    rw [if_pos hm]
    cases node with
    | file m =>
      by_cases hp : pathExists s.images m = true
      · simp only [hp, not_true_eq_false, if_false, if_true]
      · simp only [hp, not_false_eq_true, if_true, if_false]
        simp
    | dir fs => simp [pathExists, isDirName]

theorem marker_of_default (s : Partition) (d : String) (hd : d ≠ "")
    (h : getDefaultImage s = d) :
    entry s.data markerName = some (Node.file d) ∧ pathExists s.images d = true := by
  rw [getDefaultImage_eq] at h
  cases he : entry s.data markerName with
  | none => rw [he] at h; exact absurd h.symm hd
  | some node =>
    cases node with
    | dir fs => rw [he] at h; exact absurd h.symm hd
    | file m =>
      rw [he] at h
      by_cases hp : pathExists s.images m = true
      · simp only [hp, if_true] at h
        subst h
        exact ⟨rfl, hp⟩
      · simp only [hp] at h
        exact absurd h.symm hd

theorem getDefaultImage_of_marker (s : Partition) (m : String)
    (h : entry s.data markerName = some (Node.file m)) (hp : pathExists s.images m = true) :
    getDefaultImage s = m := by
  rw [getDefaultImage_eq, h]
  simp [hp]

theorem getDefaultImage_of_no_marker (s : Partition) (h : entry s.data markerName = none) :
    getDefaultImage s = "" := by
  rw [getDefaultImage_eq, h]

theorem entry_qfileWrite_marker (d : Dir) (c : String)
    (h : ∀ fs, entry d markerName ≠ some (Node.dir fs)) :
    entry (qfileWrite d markerName c) markerName = some (Node.file c) := by
  unfold qfileWrite
  rw [isDirName_marker]
  cases he : entry d markerName with
  | none => simp [entry_putEntry_same]
  | some node =>
    cases node with
    | file m => simp [entry_putEntry_same]
    | dir fs => exact absurd he (h fs)

theorem entry_qfileRemove_marker (d : Dir)
    (h : ∀ fs, entry d markerName ≠ some (Node.dir fs)) :
    entry (qfileRemove d markerName) markerName = none := by
  unfold qfileRemove
  rw [isDirName_marker]
  cases he : entry d markerName with
  | none => simp [he]
  | some node =>
    cases node with
    | file m => simp [entry_removeEntry_same]
    | dir fs => exact absurd he (h fs)

theorem entry_qfileWrite_ne (d : Dir) (name c m : String) (hm : m ≠ name) :
    entry (qfileWrite d name c) m = entry d m := by
  unfold qfileWrite
  split
  · rfl
  · split
    · rfl
    · exact entry_putEntry_ne d name m _ hm

theorem entry_qfileRemove_ne (d : Dir) (name m : String) (hm : m ≠ name) :
    entry (qfileRemove d name) m = entry d m := by
  unfold qfileRemove
  split
  · rfl
  · split
    · exact entry_removeEntry_ne d name m hm
    · rfl

theorem entry_rmRf_ne (d : Dir) (name m : String) (hm : m ≠ name) :
    entry (rmRf d name) m = entry d m := by
  unfold rmRf
  split
  · rfl
  · exact entry_removeEntry_ne d name m hm

theorem entry_setDefaultImage_ne (s : Partition) (n m : String) (hm : m ≠ markerName) :
    entry (setDefaultImage s n).data m = entry s.data m := by
  unfold setDefaultImage
  split
  · exact entry_qfileRemove_ne _ _ _ hm
  · exact entry_qfileWrite_ne _ _ _ _ hm

/-- After `rm -rf` of the data of the default image, the marker file is a regular file or
is gone. -/
theorem marker_after_rmRf (d : Dir) (name c : String)
    (h : entry d markerName = some (Node.file c)) :
    ∀ fs, entry (rmRf d name) markerName ≠ some (Node.dir fs) := by
  intro fs
  unfold rmRf
  split
  · rw [h]; simp
  · by_cases hn : markerName = name
    · rw [← hn, entry_removeEntry_same]; simp
    · rw [entry_removeEntry_ne d name markerName hn, h]; simp

/-- What `QFile::remove` leaves under the name it was given is no regular file, unless
the name designates the directory. -/
theorem entry_qfileRemove_same (d : Dir) (name c : String) (h : isDirName name = false) :
    entry (qfileRemove d name) name ≠ some (Node.file c) := by
  unfold qfileRemove
  rw [h]
  simp only [Bool.false_eq_true, if_false]
  cases he : entry d name with
  | none => simp [he]
  | some node =>
    cases node with
    | file m => simp [entry_removeEntry_same]
    | dir fs => simp [he]

theorem isHidden_of_isDirName (name : String) (h : isDirName name = true) (hn : name ≠ "") :
    isHidden name = true := by
  unfold isDirName at h
  simp only [Bool.or_eq_true, decide_eq_true_eq] at h
  rcases h with (h | h) | h
  · exact absurd h hn
  · subst h; decide
  · subst h; decide

theorem isDirName_of_fileName (n : String) (h : fileName n = true) :
    isDirName n = false ∧ n ≠ "" := by
  unfold fileName at h
  simp only [Bool.and_eq_true, Bool.not_eq_true'] at h
  refine ⟨h.1, ?_⟩
  intro e
  rw [e] at h
  exact absurd h.1 (by decide)

theorem qfileRename_moves (d : Dir) (oldName newName : String) (node : Node)
    (hnew : pathExists d newName = false) (hold : isDirName oldName = false)
    (he : entry d oldName = some node) :
    qfileRename d oldName newName = putEntry (removeEntry d oldName) newName node := by
  unfold qfileRename
  simp [hnew, hold, he]

theorem entry_qfileRename_other (d : Dir) (oldName newName m : String) (h1 : m ≠ oldName)
    (h2 : m ≠ newName) : entry (qfileRename d oldName newName) m = entry d m := by
  unfold qfileRename
  split
  · rfl
  · split
    · rfl
    · split
      · rw [entry_putEntry_ne _ _ _ _ h2, entry_removeEntry_ne _ _ _ h1]
      · rfl

theorem qfileRename_refused (d : Dir) (oldName newName : String)
    (h : pathExists d newName = true) : qfileRename d oldName newName = d := by
  unfold qfileRename
  simp [h]

/-! ## Facts about cloning -/

theorem link_some (d d2 : Dir) (oldName newName : String) (h : link d oldName newName = some d2) :
    ∃ c, isDirName oldName = false ∧ entry d oldName = some (Node.file c) ∧
      pathExists d newName = false ∧ d2 = putEntry d newName (Node.file c) := by
  unfold link at h
  by_cases hd : isDirName oldName = true
  · rw [if_pos hd] at h
    cases h
  · rw [if_neg hd] at h
    cases he : entry d oldName with
    | none => rw [he] at h; cases h
    | some node =>
      cases node with
      | dir fs => rw [he] at h; cases h
      | file c =>
        rw [he] at h
        simp only at h
        by_cases hp : pathExists d newName = true
        · rw [if_pos hp] at h
          cases h
        · rw [if_neg hp] at h
          exact ⟨c, by simpa using hd, rfl, by simpa using hp, (Option.some.inj h).symm⟩

theorem entry_mkdir_ne (d : Dir) (name m : String) (hm : m ≠ name) :
    entry (mkdir d name) m = entry d m := by
  unfold mkdir
  split
  · rfl
  · exact entry_putEntry_ne _ _ _ _ hm

theorem entry_copyInto_ne (cp : CopyCommand) (d : Dir) (src dst m : String) (hm : m ≠ dst) :
    entry (copyInto cp d src dst) m = entry d m := by
  unfold copyInto
  split
  · exact entry_putEntry_ne _ _ _ _ hm
  · exact entry_putEntry_ne _ _ _ _ hm
  · rfl

theorem entry_copyInto_dir (cp : CopyCommand) (d : Dir) (src dst : String)
    (fs : List (String × String)) (h : entry d dst = some (Node.dir fs)) :
    ∃ fs2, entry (copyInto cp d src dst) dst = some (Node.dir fs2) := by
  unfold copyInto
  cases hs : entry d src with
  | none => exact ⟨fs, by simp [h]⟩
  | some a => exact ⟨cp.intoDir a fs, by simp [h, entry_putEntry_same]⟩

theorem link_ok (d : Dir) (oldName newName c : String) (h1 : isDirName oldName = false)
    (h2 : entry d oldName = some (Node.file c)) (h3 : pathExists d newName = false) :
    link d oldName newName = some (putEntry d newName (Node.file c)) := by
  unfold link
  simp [h1, h2, h3]

theorem cloneImage_not_linked (cp : CopyCommand) (s : Partition) (oldname newname : String)
    (clonedata : Bool) (hl : link s.images oldname newname = none) :
    cloneImage cp s oldname newname clonedata = s := by
  unfold cloneImage
  simp only [toAscii, hl]

/-- After a successful link, `images/new` is a second name of the file `images/old`, and in
`/mnt/data` only the entry `new` can change, into a directory when nothing was there. -/
theorem cloneImage_linked (cp : CopyCommand) (s : Partition) (oldname newname : String)
    (clonedata : Bool) (images : Dir) (hl : link s.images oldname newname = some images) :
    (cloneImage cp s oldname newname clonedata).images = images ∧
    (∀ m, m ≠ newname →
      entry (cloneImage cp s oldname newname clonedata).data m = entry s.data m) ∧
    (entry s.data newname = none →
      entry (cloneImage cp s oldname newname clonedata).data newname = none ∨
      ∃ fs, entry (cloneImage cp s oldname newname clonedata).data newname =
        some (Node.dir fs)) := by
  obtain ⟨c, _, _, h3, _⟩ := link_some _ _ _ _ hl
  have hnd : isDirName newname = false := by
    cases hd : isDirName newname with
    | false => rfl
    | true => simp [pathExists, hd] at h3
  have hmk : entry s.data newname = none →
      entry (mkdir s.data newname) newname = some (Node.dir []) := by
    intro hnone
    unfold mkdir
    simp [pathExists, hnd, hnone, entry_putEntry_same]
  unfold cloneImage
  simp only [toAscii, hl]
  cases clonedata with
  | false => exact ⟨rfl, fun _ _ => rfl, fun h => Or.inl h⟩
  | true =>
    cases hp : pathExists s.data oldname with
    | false =>
      simp only [if_true, Bool.false_eq_true, if_false]
      exact ⟨trivial, fun _ _ => trivial, fun h => Or.inl h⟩
    | true =>
      simp only [if_true]
      refine ⟨trivial, ?_, ?_⟩
      · intro m hm
        rw [entry_copyInto_ne _ _ _ _ _ hm, entry_mkdir_ne _ _ _ hm]
      · intro hnone
        right
        exact entry_copyInto_dir cp _ _ _ _ (hmk hnone)

/-! ## Facts about deletion -/

theorem deleteImage_images (s : Partition) (n : String) :
    (deleteImage s n).images = qfileRemove s.images n := by
  unfold deleteImage
  by_cases hn : n = ""
  · subst hn
    simp [qfileRemove, isDirName]
  · rw [if_neg hn]
    simp only
    split
    · split
      · exact setDefaultImage_images _ _
      · exact setDefaultImage_images _ _
    · rfl

theorem deleteImage_data_ne (s : Partition) (n m : String) (h1 : m ≠ markerName)
    (h2 : m ≠ n) : entry (deleteImage s n).data m = entry s.data m := by
  unfold deleteImage
  by_cases hn : n = ""
  · rw [if_pos hn]
  · rw [if_neg hn]
    simp only
    split
    · split
      · rw [entry_setDefaultImage_ne _ _ _ h1]
        exact entry_rmRf_ne _ _ _ h2
      · rw [entry_setDefaultImage_ne _ _ _ h1]
        exact entry_rmRf_ne _ _ _ h2
    · exact entry_rmRf_ne _ _ _ h2

theorem deleteImage_not_default (s : Partition) (n : String) (hn : n ≠ "")
    (h : getDefaultImage s ≠ n) :
    deleteImage s n = ⟨qfileRemove s.images n, rmRf s.data n⟩ := by
  unfold deleteImage
  simp [hn, h]

/-! ## The catalog is in key order -/

theorem mem_qmapInsert (m : List (String × String)) (k v : String) (e : String × String)
    (h : e ∈ qmapInsert m k v) : e = (k, v) ∨ e ∈ m := by
  induction m with
  | nil =>
    simp only [qmapInsert, List.mem_singleton] at h
    exact Or.inl h
  | cons e2 m ih =>
    obtain ⟨k2, v2⟩ := e2
    unfold qmapInsert at h
    by_cases h1 : qstringLt k k2 = true
    · rw [if_pos h1] at h
      rcases List.mem_cons.mp h with h | h
      · exact Or.inl h
      · exact Or.inr h
    · rw [if_neg h1] at h
      by_cases h2 : k = k2
      · rw [if_pos h2] at h
        rcases List.mem_cons.mp h with h | h
        · exact Or.inl h
        · exact Or.inr (List.mem_cons_of_mem _ h)
      · rw [if_neg h2] at h
        rcases List.mem_cons.mp h with h | h
        · exact Or.inr (h ▸ List.mem_cons_self _ _)
        · rcases ih h with h | h
          · exact Or.inl h
          · exact Or.inr (List.mem_cons_of_mem _ h)

theorem qmapInsert_sorted (m : List (String × String)) (k v : String)
    (h : m.Pairwise fun a b => a.1.data < b.1.data) :
    (qmapInsert m k v).Pairwise fun a b => a.1.data < b.1.data := by
  induction m with
  | nil => simp [qmapInsert]
  | cons e2 m ih =>
    obtain ⟨k2, v2⟩ := e2
    obtain ⟨hhead, htail⟩ := List.pairwise_cons.mp h
    unfold qmapInsert
    by_cases h1 : qstringLt k k2 = true
    · rw [if_pos h1]
      have hk : k.data < k2.data := by simpa [qstringLt] using h1
      refine List.pairwise_cons.mpr ⟨?_, h⟩
      intro e he
      rcases List.mem_cons.mp he with he | he
      · rw [he]
        exact hk
      · exact lt_trans hk (hhead e he)
    · rw [if_neg h1]
      have hk : ¬ k.data < k2.data := by simpa [qstringLt] using h1
      by_cases h2 : k = k2
      · rw [if_pos h2]
        subst h2
        exact List.pairwise_cons.mpr ⟨hhead, htail⟩
      · rw [if_neg h2]
        have hd : k.data ≠ k2.data := fun e => h2 (String.ext e)
        have hgt : k2.data < k.data := by
          rcases lt_trichotomy k.data k2.data with h3 | h3 | h3
          · exact absurd h3 hk
          · exact absurd h3 hd
          · exact h3
        refine List.pairwise_cons.mpr ⟨?_, ih htail⟩
        intro e he
        rcases mem_qmapInsert m k v e he with he | he
        · rw [he]
          exact hgt
        · exact hhead e he

theorem foldl_qmapInsert_sorted (f : String → String) (l : List String) :
    ∀ acc : List (String × String), (acc.Pairwise fun a b => a.1.data < b.1.data) →
      (l.foldl (fun images image => qmapInsert images image (f image)) acc).Pairwise
        fun a b => a.1.data < b.1.data := by
  induction l with
  | nil => intro acc h; exact h
  | cons a l ih =>
    intro acc h
    rw [List.foldl_cons]
    exact ih _ (qmapInsert_sorted acc a (f a) h)

/-- The pairs `listInstalledImages` returns are in strictly increasing key order, as the
keys of a `QMap` are. -/
theorem listInstalledImages_sorted (s : Partition) :
    (listInstalledImages s).Pairwise fun a b => a.1.data < b.1.data :=
  foldl_qmapInsert_sorted _ _ [] List.Pairwise.nil

/-- The first key of the catalog is its least key. -/
theorem catalogKeys_first_least (s : Partition) (first : String) (rest : List String)
    (h : catalogKeys s = first :: rest) : ∀ k ∈ rest, first.data < k.data := by
  have hs := listInstalledImages_sorted s
  unfold catalogKeys at h
  cases hl : listInstalledImages s with
  | nil => rw [hl] at h; cases h
  | cons e m =>
    rw [hl] at h hs
    simp only [List.map_cons, List.cons.injEq] at h
    obtain ⟨h1, h2⟩ := h
    intro k hk
    rw [← h2] at hk
    obtain ⟨e2, he2, rfl⟩ := List.mem_map.mp hk
    rw [← h1]
    exact (List.pairwise_cons.mp hs).1 e2 he2

/-! ## The regular catalog is kept by every safe call -/

theorem regularCatalog_iff (s : Partition) :
    regularCatalog s = true ↔
      (∀ e ∈ s.images, filenameSafe e.1 = true ∧ ∃ c, e.2 = Node.file c) ∧
      (∀ m, entry s.data markerName = some (Node.file m) → m = "" ∨ filenameSafe m = true) := by
  unfold regularCatalog
  rw [Bool.and_eq_true, List.all_eq_true]
  constructor
  · rintro ⟨h1, h2⟩
    constructor
    · intro e he
      have := h1 e he
      rw [Bool.and_eq_true] at this
      refine ⟨this.1, ?_⟩
      cases hn : e.2 with
      | file c => exact ⟨c, rfl⟩
      | dir fs => rw [hn] at this; simp at this
    · intro m hm
      rw [hm] at h2
      simpa using h2
  · rintro ⟨h1, h2⟩
    constructor
    · intro e he
      obtain ⟨hs, c, hc⟩ := h1 e he
      rw [Bool.and_eq_true]
      exact ⟨hs, by rw [hc]⟩
    · cases he : entry s.data markerName with
      | none => rfl
      | some node =>
        cases node with
        | dir fs => rfl
        | file m => simpa using h2 m he

theorem regular_images_removeEntry (d : Dir) (name : String)
    (h : ∀ e ∈ d, filenameSafe e.1 = true ∧ ∃ c, e.2 = Node.file c) :
    ∀ e ∈ removeEntry d name, filenameSafe e.1 = true ∧ ∃ c, e.2 = Node.file c :=
  fun e he => h e (mem_removeEntry d name e he)

theorem regular_images_putEntry (d : Dir) (name c : String) (hn : filenameSafe name = true)
    (h : ∀ e ∈ d, filenameSafe e.1 = true ∧ ∃ c, e.2 = Node.file c) :
    ∀ e ∈ putEntry d name (Node.file c), filenameSafe e.1 = true ∧ ∃ c, e.2 = Node.file c := by
  intro e he
  rcases mem_putEntry d name _ e he with h1 | h1
  · subst h1
    exact ⟨hn, c, rfl⟩
  · exact h e h1

theorem regular_images_qfileRemove (d : Dir) (name : String)
    (h : ∀ e ∈ d, filenameSafe e.1 = true ∧ ∃ c, e.2 = Node.file c) :
    ∀ e ∈ qfileRemove d name, filenameSafe e.1 = true ∧ ∃ c, e.2 = Node.file c := by
  unfold qfileRemove
  split
  · exact h
  · split
    · exact regular_images_removeEntry d name h
    · exact h

theorem regular_images_qfileRename (d : Dir) (oldName newName : String)
    (hn : filenameSafe newName = true)
    (h : ∀ e ∈ d, filenameSafe e.1 = true ∧ ∃ c, e.2 = Node.file c) :
    ∀ e ∈ qfileRename d oldName newName,
      filenameSafe e.1 = true ∧ ∃ c, e.2 = Node.file c := by
  unfold qfileRename
  split
  · exact h
  · split
    · exact h
    · split
      · rename_i node he
        obtain ⟨_, c, hc⟩ := h _ (mem_of_entry d oldName node he)
        simp only at hc
        subst hc
        exact regular_images_putEntry _ _ _ hn (regular_images_removeEntry d oldName h)
      · exact h

theorem marker_qfileRemove (d : Dir) (m : String)
    (h : entry (qfileRemove d markerName) markerName = some (Node.file m)) : False := by
  unfold qfileRemove at h
  rw [isDirName_marker] at h
  simp only [Bool.false_eq_true, if_false] at h
  cases he : entry d markerName with
  | none => rw [he] at h; simp [he] at h
  | some node =>
    cases node with
    | file c => rw [he] at h; simp [entry_removeEntry_same] at h
    | dir fs => rw [he] at h; simp [he] at h

theorem marker_qfileWrite (d : Dir) (c m : String)
    (h : entry (qfileWrite d markerName c) markerName = some (Node.file m)) : m = c := by
  unfold qfileWrite at h
  rw [isDirName_marker] at h
  simp only [Bool.false_eq_true, if_false] at h
  cases he : entry d markerName with
  | none =>
    rw [he] at h
    simp only [entry_putEntry_same, Option.some.injEq, Node.file.injEq] at h
    exact h.symm
  | some node =>
    cases node with
    | file c2 =>
      rw [he] at h
      simp only [entry_putEntry_same, Option.some.injEq, Node.file.injEq] at h
      exact h.symm
    | dir fs => rw [he] at h; simp [he] at h

theorem regular_setDefaultImage (s : Partition) (n : String) (h : regularCatalog s = true)
    (hn : n = "" ∨ filenameSafe n = true) : regularCatalog (setDefaultImage s n) = true := by
  rw [regularCatalog_iff] at h ⊢
  obtain ⟨h1, _⟩ := h
  refine ⟨by rw [setDefaultImage_images]; exact h1, ?_⟩
  intro m hm
  unfold setDefaultImage at hm
  by_cases he : n = ""
  · rw [if_pos he] at hm
    exact (marker_qfileRemove _ m hm).elim
  · rw [if_neg he] at hm
    have := marker_qfileWrite _ _ m hm
    subst this
    exact hn

theorem marker_qfileRename (d : Dir) (oldName newName : String) (hres : newName ≠ markerName)
    (m : String) (h : entry (qfileRename d oldName newName) markerName = some (Node.file m)) :
    entry d markerName = some (Node.file m) := by
  unfold qfileRename at h
  split at h
  · exact h
  · split at h
    · exact h
    · split at h
      · rw [entry_putEntry_ne _ _ _ _ (Ne.symm hres)] at h
        by_cases ho : markerName = oldName
        · rw [← ho, entry_removeEntry_same] at h
          cases h
        · rwa [entry_removeEntry_ne _ _ _ ho] at h
      · exact h

theorem regular_renameImage (s : Partition) (oldname newName : String)
    (h : regularCatalog s = true) (hn : filenameSafe newName = true)
    (hres : newName ≠ markerName) : regularCatalog (renameImage s oldname newName) = true := by
  have h1 : regularCatalog
      (if getDefaultImage s = oldname then setDefaultImage s newName else s) = true := by
    split
    · exact regular_setDefaultImage s newName h (Or.inr hn)
    · exact h
  unfold renameImage
  generalize (if getDefaultImage s = oldname then setDefaultImage s newName else s) = s1 at h1
  rw [regularCatalog_iff] at h1 ⊢
  exact ⟨regular_images_qfileRename _ _ _ hn h1.1,
    fun m hm => h1.2 m (marker_qfileRename _ _ _ hres m hm)⟩

theorem regular_cloneImage (cp : CopyCommand) (s : Partition) (oldname newname : String)
    (clonedata : Bool) (h : regularCatalog s = true) (hn : filenameSafe newname = true)
    (hres : newname ≠ markerName) :
    regularCatalog (cloneImage cp s oldname newname clonedata) = true := by
  cases hl : link s.images oldname newname with
  | none => rw [cloneImage_not_linked cp s oldname newname clonedata hl]; exact h
  | some images =>
    obtain ⟨himg, hdata, _⟩ := cloneImage_linked cp s oldname newname clonedata images hl
    obtain ⟨c, _, _, _, hput⟩ := link_some _ _ _ _ hl
    rw [regularCatalog_iff] at h ⊢
    constructor
    · rw [himg, hput]
      exact regular_images_putEntry _ _ _ hn h.1
    · intro m hm
      rw [hdata markerName (Ne.symm hres)] at hm
      exact h.2 m hm

theorem marker_rmRf (d : Dir) (name m : String)
    (h : entry (rmRf d name) markerName = some (Node.file m)) :
    entry d markerName = some (Node.file m) := by
  unfold rmRf at h
  split at h
  · exact h
  · by_cases ho : markerName = name
    · rw [← ho, entry_removeEntry_same] at h
      cases h
    · rwa [entry_removeEntry_ne _ _ _ ho] at h

theorem regular_deleteImage (s : Partition) (name : String) (h : regularCatalog s = true) :
    regularCatalog (deleteImage s name) = true := by
  have h2 : regularCatalog ⟨qfileRemove s.images name, rmRf s.data name⟩ = true := by
    rw [regularCatalog_iff] at h ⊢
    exact ⟨regular_images_qfileRemove _ _ h.1, fun m hm => h.2 m (marker_rmRf _ _ m hm)⟩
  unfold deleteImage
  by_cases hn : name = ""
  · rw [if_pos hn]
    exact h
  · rw [if_neg hn]
    simp only
    generalize (⟨qfileRemove s.images name, rmRf s.data name⟩ : Partition) = s2 at h2
    split
    · split
      · exact regular_setDefaultImage s2 "" h2 (Or.inl rfl)
      · rename_i first v rest hl
        have hmem : first ∈ catalogKeys s2 := by simp [catalogKeys, hl]
        obtain ⟨_, c, hc⟩ := (mem_catalogKeys s2 first).mp hmem
        have hsafe := ((regularCatalog_iff s2).mp h2).1 _ (mem_of_entry _ _ _ hc)
        exact regular_setDefaultImage s2 first h2 (Or.inr hsafe.1)
    · exact h2

theorem regular_applyOp (cp : CopyCommand) (s : Partition) (op : Op)
    (h : regularCatalog s = true) (hop : safeOp op = true) :
    regularCatalog (applyOp cp s op) = true := by
  cases op with
  | setDefaultImage name =>
    simp only [safeOp, Bool.or_eq_true, decide_eq_true_eq] at hop
    exact regular_setDefaultImage s name h hop
  | renameImage oldname newName =>
    simp only [safeOp, Bool.and_eq_true, decide_eq_true_eq] at hop
    exact regular_renameImage s oldname newName h hop.1.2 hop.2
  | cloneImage oldname newname clonedata =>
    simp only [safeOp, Bool.and_eq_true, decide_eq_true_eq] at hop
    exact regular_cloneImage cp s oldname newname clonedata h hop.1.2 hop.2
  | deleteImage name => exact regular_deleteImage s name h

theorem regular_run (cp : CopyCommand) (ops : List Op) :
    ∀ s : Partition, regularCatalog s = true → (∀ op ∈ ops, safeOp op = true) →
      regularCatalog (run cp s ops) = true := by
  induction ops with
  | nil => intro s h _; exact h
  | cons op ops ih =>
    intro s h hops
    unfold run
    rw [List.foldl_cons]
    exact ih _ (regular_applyOp cp s op h (hops op (by simp)))
      (fun o ho => hops o (by simp [ho]))

theorem default_listed (s : Partition) (h : regularCatalog s = true) :
    getDefaultImage s = "" ∨ getDefaultImage s ∈ catalogKeys s := by
  by_cases hd : getDefaultImage s = ""
  · exact Or.inl hd
  · right
    obtain ⟨hmark, hex⟩ := marker_of_default s _ hd rfl
    obtain ⟨h1, h2⟩ := (regularCatalog_iff s).mp h
    rcases h2 _ hmark with he | hs
    · exact absurd he hd
    · obtain ⟨hnd, _, hnh⟩ := isDirName_of_filenameSafe _ hs
      cases he : entry s.images (getDefaultImage s) with
      | none => simp [pathExists, hnd, he] at hex
      | some node =>
        obtain ⟨_, c, hc⟩ := h1 _ (mem_of_entry _ _ _ he)
        simp only at hc
        subst hc
        exact (mem_catalogKeys s _).mpr ⟨hnh, c, he⟩

/-! ## Remarks on names and tokens

Evaluations of the code that show what the preconditions of the results below exclude. -/

/-- The name `.` designates `/mnt/images` itself, which exists: after `setDefaultImage .`
the default is `.`, which is no key of the catalog. -/
theorem default_dot :
    getDefaultImage (setDefaultImage oneImage ".") = "." ∧
      catalogKeys (setDefaultImage oneImage ".") = ["a.img"] := by
  decide

/-- The image named `default` has its data under the path of the marker file: when it is
the default, `renameImage default x.img` writes the marker and then moves it away with the
data, and no default is left. -/
theorem rename_moves_marker :
    getDefaultImage imageNamedDefault = "default" ∧
      getDefaultImage (renameImage imageNamedDefault "default" "x.img") = "" ∧
      entry (renameImage imageNamedDefault "default" "x.img").data markerName = none ∧
      entry (renameImage imageNamedDefault "default" "x.img").data "x.img" =
        some (Node.file "x.img") := by
  decide

/-- A clone named `default` has the marker file as the destination of its data: when the
data directory of `a.img` holds one file, the copy replaces the content of the marker. -/
theorem clone_overwrites_marker :
    entry (cloneImage cpSingle twoImages "a.img" "default" true).data markerName =
        some (Node.file "pi") ∧
      getDefaultImage twoImages = "a.img" ∧
      getDefaultImage (cloneImage cpSingle twoImages "a.img" "default" true) = "" := by
  decide

/-- A line without `ipv4` token whose token `xipv4=1` contains `ipv4=` gets both network
files written. -/
theorem network_files_without_ipv4_token :
    findToken (bootoptions "xipv4=1") "ipv4" = none ∧
      written resolvConfPath
        (initializeDataPartition ⟨"xipv4=1", 0, 0, "", "", false⟩ "mmcblk0p2") =
        some "nameserver 8.8.8.8" ∧
      written interfacesPath
        (initializeDataPartition ⟨"xipv4=1", 0, 0, "", "", false⟩ "mmcblk0p2") =
        some ifaces := by
  decide

/-- A `dns` token with an empty value gives the server `8.8.8.8`. -/
theorem empty_dns_value :
    findToken (bootoptions "ipv4=10.0.0.2 dns=") "dns" = some "dns=".data ∧
      written resolvConfPath
        (initializeDataPartition ⟨"ipv4=10.0.0.2 dns=", 0, 0, "", "", false⟩ "mmcblk0p2") =
        some "nameserver 8.8.8.8" := by
  decide

/-- A run whose mount fails reports the error and does nothing else. -/
theorem failed_mount (env : BootEnv) (dev : String) (h : env.mountStatus ≠ 0) :
    initializeDataPartition env dev =
      [Action.execute ("mount /dev/" ++ dev ++ " /mnt"),
        Action.logError "Error mounting data partition"] := by
  unfold initializeDataPartition
  rw [if_pos h]

/-! ## Claims on display names -/

/-- Claim C6 as stated fails: deriving twice from `a.img.img` gives `a`, deriving once
gives `a.img`. -/
theorem friendlyName_not_idempotent :
    imageFilenameToFriendlyName (imageFilenameToFriendlyName "a.img.img") ≠
      imageFilenameToFriendlyName "a.img.img" := by
  decide

/-- Claim C6 amended: deriving a second time changes nothing exactly when the derived name
contains no further `.img`. -/
theorem friendlyName_idempotent_iff (x : String) :
    imageFilenameToFriendlyName (imageFilenameToFriendlyName x) =
        imageFilenameToFriendlyName x ↔
      ¬ imgExt <:+: (imageFilenameToFriendlyName x).data := by
  unfold imageFilenameToFriendlyName
  constructor
  · intro h
    exact (friendlyChars_twice x.data).mp (congrArg String.data h)
  · intro h
    exact congrArg String.mk ((friendlyChars_twice x.data).mpr h)

/-- Claim C7 as stated fails: for `a.img192` the code returns `a`, the reference
derivation returns `a.img192` because the segment does not end with `.img`. -/
theorem friendlyName_reference_differs :
    imageFilenameToFriendlyName "a.img192" = "a" ∧
      friendlyNameReference "a.img192" = "a.img192" ∧
      imageFilenameToFriendlyName "a.img192" ≠ friendlyNameReference "a.img192" := by
  decide

/-- Claim C7 amended: with underscores turned into spaces and only the part after the last
`/` kept, the code cuts the segment at its last occurrence of `.img`, dropping that
occurrence and all that follows; a segment without `.img` is returned whole.  So the code
agrees with the reference derivation whenever the segment ends with `.img` or does not
contain it, and `raspbian.img` gives `raspbian`, `my_os.img` gives `my os`. -/
theorem friendlyName_cuts_at_last_img :
    (∀ x : String,
      (¬ imgExt <:+: displaySegment x.data →
        imageFilenameToFriendlyName x = String.mk (displaySegment x.data)) ∧
      (∀ r t : List Char, displaySegment x.data = r ++ imgExt ++ t → ¬ imgExt <:+: t →
        imageFilenameToFriendlyName x = String.mk r) ∧
      (imgExt <:+ displaySegment x.data ∨ ¬ imgExt <:+: displaySegment x.data →
        imageFilenameToFriendlyName x = friendlyNameReference x)) ∧
    imageFilenameToFriendlyName "raspbian.img" = "raspbian" ∧
    imageFilenameToFriendlyName "my_os.img" = "my os" := by
  have key : ∀ (x : String) (r t : List Char), displaySegment x.data = r ++ imgExt ++ t →
      ¬ imgExt <:+: t → imageFilenameToFriendlyName x = String.mk r := by
    intro x r t hseg hno
    have hlast : ¬ imgExt <:+: (imgExt ++ t).tail := by
      show ¬ imgExt <:+: 'i' :: 'm' :: 'g' :: t
      intro h
      rcases List.infix_cons_iff.mp h with h | h
      · exact absurd (List.cons_prefix_cons.mp h).1 (by decide)
      rcases List.infix_cons_iff.mp h with h | h
      · exact absurd (List.cons_prefix_cons.mp h).1 (by decide)
      rcases List.infix_cons_iff.mp h with h | h
      · exact absurd (List.cons_prefix_cons.mp h).1 (by decide)
      exact hno h
    unfold imageFilenameToFriendlyName
    rw [friendlyChars_eq, hseg, qLastIndexOf_append imgExt imgExt_ne_nil t hlast r]
    simp
  have none : ∀ x : String, ¬ imgExt <:+: displaySegment x.data →
      imageFilenameToFriendlyName x = String.mk (displaySegment x.data) := by
    intro x hno
    unfold imageFilenameToFriendlyName
    rw [friendlyChars_eq, (qLastIndexOf_eq_none imgExt imgExt_ne_nil _).mpr hno]
  refine ⟨fun x => ⟨none x, key x, ?_⟩, by decide, by decide⟩
  rintro (hsuf | hno)
  · obtain ⟨r, hr⟩ := hsuf
    have hk := key x r [] (by simpa using hr.symm) (by simp [imgExt])
    rw [hk]
    unfold friendlyNameReference
    have hs : imgExt.isSuffixOf (displaySegment x.data) = true :=
      List.isSuffixOf_iff_suffix.mpr ⟨r, hr⟩
    simp only [hs, if_true, ← hr]
    simp
  · rw [none x hno]
    unfold friendlyNameReference
    have hs : ¬ imgExt.isSuffixOf (displaySegment x.data) = true := by
      intro h
      exact hno (List.isSuffixOf_iff_suffix.mp h).isInfix
    simp [hs]

/-! ## Claims on boot parameters, bootstrap and disk space -/

/-- Claim C8 as stated fails: on the line `nodns=1 dns=2` the first token whose key is
exactly `dns` has value `2`, yet `bootParam` returns `1`, found inside the token `nodns=1`. -/
theorem bootParam_reads_inside_token :
    bootParam "nodns=1 dns=2" "dns" = "1" ∧
      bootParamReference (bootoptions "nodns=1 dns=2") "dns" = "2" ∧
      bootParam "nodns=1 dns=2" "dns" ≠
        bootParamReference (bootoptions "nodns=1 dns=2") "dns" := by
  decide

/-- Claim C8 amended: for a key name `k` without space or `=` and a line in which no token
contains `k=` after its first character, `bootParam k` returns the value of the first
token whose key is exactly `k`, and the empty text when no token has key `k`. -/
theorem bootParam_token_value (cmdline k : String) (hk : KeyName k)
    (hal : TokenAligned k (bootoptions cmdline)) :
    (∀ t, findToken (bootoptions cmdline) k = some t →
        bootParam cmdline k = String.mk (tokenValue t)) ∧
    (findToken (bootoptions cmdline) k = none → bootParam cmdline k = "") := by
  have h := bootParam_eq_reference cmdline k hk hal
  unfold bootParamReference at h
  constructor
  · intro t ht
    rw [ht] at h
    exact h
  · intro hn
    rw [hn] at h
    exact h

/-- The amended claim C8 on a line with the tokens `ipv4` and `datadev`. -/
theorem bootParam_token_value_witness :
    KeyName "datadev" ∧
    TokenAligned "datadev" (bootoptions "ipv4=192.168.1.50/wlan0 datadev=mmcblk0p2\n") ∧
    bootParam "ipv4=192.168.1.50/wlan0 datadev=mmcblk0p2\n" "datadev" = "mmcblk0p2" :=
  ⟨by decide, by decide,
    (bootParam_token_value "ipv4=192.168.1.50/wlan0 datadev=mmcblk0p2\n" "datadev"
      (by decide) (by decide)).1 "datadev=mmcblk0p2".data (by decide)⟩

/-- Claim C9 as stated fails: the line `ipv4=10.0.0.2 nodns=1` has an `ipv4` token with a
value and no `dns` token, yet the run writes `nameserver 1` to `resolv.conf`. -/
theorem resolvConf_reads_inside_token :
    findToken (bootoptions "ipv4=10.0.0.2 nodns=1") "ipv4" = some "ipv4=10.0.0.2".data ∧
      findToken (bootoptions "ipv4=10.0.0.2 nodns=1") "dns" = none ∧
      written resolvConfPath
        (initializeDataPartition ⟨"ipv4=10.0.0.2 nodns=1", 0, 0, "", "", false⟩ "mmcblk0p2") =
        some "nameserver 1" := by
  decide

/-- Claim C9 amended: on a run whose mount succeeds, for a line in which `ipv4=` and
`dns=` occur only at the start of tokens: when the line has an `ipv4` token with a
non-empty value, `resolv.conf` is written with `nameserver ` followed by the value of the
`dns` token when that value is not empty, and with `nameserver 8.8.8.8` when the line has
no `dns` token or its value is empty; when the line has no `ipv4` token neither
`resolv.conf` nor the `interfaces` file is written. -/
theorem resolvConf_content (env : BootEnv) (dev : String) (hm : env.mountStatus = 0)
    (h4 : TokenAligned "ipv4" (bootoptions env.cmdline))
    (hd : TokenAligned "dns" (bootoptions env.cmdline)) :
    (∀ t, findToken (bootoptions env.cmdline) "ipv4" = some t → tokenValue t ≠ [] →
      (∀ d, findToken (bootoptions env.cmdline) "dns" = some d → tokenValue d ≠ [] →
        written resolvConfPath (initializeDataPartition env dev) =
          some ("nameserver " ++ String.mk (tokenValue d))) ∧
      (findToken (bootoptions env.cmdline) "dns" = none →
        written resolvConfPath (initializeDataPartition env dev) =
          some "nameserver 8.8.8.8") ∧
      (∀ d, findToken (bootoptions env.cmdline) "dns" = some d → tokenValue d = [] →
        written resolvConfPath (initializeDataPartition env dev) =
          some "nameserver 8.8.8.8")) ∧
    (findToken (bootoptions env.cmdline) "ipv4" = none →
      written resolvConfPath (initializeDataPartition env dev) = none ∧
      written interfacesPath (initializeDataPartition env dev) = none) := by
  have e4 := bootParam_eq_reference env.cmdline "ipv4" (by decide) h4
  have ed := bootParam_eq_reference env.cmdline "dns" (by decide) hd
  have hne : interfacesPath ≠ resolvConfPath := by decide
  rw [written_network env dev hm _ (Or.inl rfl), written_network env dev hm _ (Or.inr rfl)]
  unfold networkActions
  rw [e4, ed]
  unfold bootParamReference
  constructor
  · intro t ht hv
    have hv2 : String.mk (tokenValue t) ≠ "" := fun e => hv (congrArg String.data e)
    rw [ht]
    simp only [ne_eq, hv2, not_false_eq_true, if_true]
    refine ⟨?_, ?_, ?_⟩
    · intro d hdd hdv
      have hdv2 : String.mk (tokenValue d) ≠ "" := fun e => hdv (congrArg String.data e)
      rw [hdd]
      simp [written, hdv2, hne]
    · intro hdd
      rw [hdd]
      simp [written, hne]
    · intro d hdd hdv
      have hdv2 : String.mk (tokenValue d) = "" := by rw [hdv]
      rw [hdd]
      simp [written, hne, hdv2]
  · intro hn
    rw [hn]
    simp [written]

/-- The amended claim C9 on the line `ipv4=192.168.1.50/wlan0`, which has no `dns` token. -/
theorem resolvConf_content_witness :
    (⟨"ipv4=192.168.1.50/wlan0", 0, 0, "Europe/Amsterdam", "us", true⟩ : BootEnv).mountStatus
        = 0 ∧
    written resolvConfPath
      (initializeDataPartition ⟨"ipv4=192.168.1.50/wlan0", 0, 0, "Europe/Amsterdam", "us", true⟩
        "mmcblk0p2") = some "nameserver 8.8.8.8" :=
  ⟨rfl,
    ((resolvConf_content ⟨"ipv4=192.168.1.50/wlan0", 0, 0, "Europe/Amsterdam", "us", true⟩
      "mmcblk0p2" rfl (by decide) (by decide)).1 "ipv4=192.168.1.50/wlan0".data
        (by decide) (by decide)).2.1 (by decide)⟩

/-- Claim C10: with the products taken exactly, after a successful query
`availableDiskSpace` is `f_bavail * u` and `diskSpaceInUse` is `f_blocks * u`, where `u` is
`f_frsize` when that is not zero and `f_bsize` otherwise; after a failed query both are
`-1`, which no successful query gives. -/
theorem diskSpace_exact (statvfs : String → Option Statvfs) (path : String) :
    (∀ buf, statvfs (toAscii path) = some buf →
      availableDiskSpace statvfs path =
        (buf.f_bavail : Int) * (if buf.f_frsize ≠ 0 then buf.f_frsize else buf.f_bsize : Nat) ∧
      diskSpaceInUse statvfs path =
        (buf.f_blocks : Int) * (if buf.f_frsize ≠ 0 then buf.f_frsize else buf.f_bsize : Nat) ∧
      availableDiskSpace statvfs path ≠ -1 ∧ diskSpaceInUse statvfs path ≠ -1) ∧
    (statvfs (toAscii path) = none →
      availableDiskSpace statvfs path = -1 ∧ diskSpaceInUse statvfs path = -1) := by
  constructor
  · intro buf h
    have ha : availableDiskSpace statvfs path =
        (buf.f_bavail : Int) * (if buf.f_frsize ≠ 0 then buf.f_frsize else buf.f_bsize : Nat) := by
      unfold availableDiskSpace
      rw [h]
      by_cases hz : buf.f_frsize ≠ 0 <;> simp [hz]
    have hu : diskSpaceInUse statvfs path =
        (buf.f_blocks : Int) * (if buf.f_frsize ≠ 0 then buf.f_frsize else buf.f_bsize : Nat) := by
      unfold diskSpaceInUse
      rw [h]
      by_cases hz : buf.f_frsize ≠ 0 <;> simp [hz]
    refine ⟨ha, hu, ?_, ?_⟩
    · rw [ha]
      have : (0 : Int) ≤ (buf.f_bavail : Int) *
          (if buf.f_frsize ≠ 0 then buf.f_frsize else buf.f_bsize : Nat) := by positivity
      omega
    · rw [hu]
      have : (0 : Int) ≤ (buf.f_blocks : Int) *
          (if buf.f_frsize ≠ 0 then buf.f_frsize else buf.f_bsize : Nat) := by positivity
      omega
  · intro h
    unfold availableDiskSpace diskSpaceInUse
    rw [h]
    exact ⟨rfl, rfl⟩

/-! ## Claims on the image catalog and the default image -/

/-- Claim C2: when the non-empty name `d` is the current default, after `deleteImage d`
the default is the first key of the remaining catalog (its least key), an image other than
`d` that is still there, when that catalog is not empty; when it is empty there is no
default and the marker file is absent. -/
theorem deleteImage_of_default (s : Partition) (d : String) (hd : d ≠ "")
    (hdef : getDefaultImage s = d) :
    (∀ first rest, catalogKeys (deleteImage s d) = first :: rest →
      getDefaultImage (deleteImage s d) = first ∧ first ≠ d ∧
        (∃ c, entry (deleteImage s d).images first = some (Node.file c)) ∧
        ∀ k ∈ rest, first.data < k.data) ∧
    (catalogKeys (deleteImage s d) = [] →
      getDefaultImage (deleteImage s d) = "" ∧
        entry (deleteImage s d).data markerName = none) := by
  obtain ⟨hmark, _⟩ := marker_of_default s d hd hdef
  have hnodir := marker_after_rmRf s.data d d hmark
  generalize hs2 : (⟨qfileRemove s.images d, rmRf s.data d⟩ : Partition) = s2
  have hdata2 : s2.data = rmRf s.data d := by rw [← hs2]
  have himg2 : s2.images = qfileRemove s.images d := by rw [← hs2]
  have hdel : deleteImage s d =
      match listInstalledImages s2 with
      | [] => setDefaultImage s2 ""
      | (first, _) :: _ => setDefaultImage s2 first := by
    unfold deleteImage
    simp only [hd, if_false, hdef, decide_True, if_true, hs2]
  rw [← hdata2] at hnodir
  cases hl : listInstalledImages s2 with
  | nil =>
    rw [hl] at hdel
    simp only at hdel
    have himg : (deleteImage s d).images = s2.images := by
      rw [hdel]
      exact setDefaultImage_images _ _
    have hkeys : catalogKeys (deleteImage s d) = [] := by
      rw [catalogKeys_images _ _ himg]
      simp [catalogKeys, hl]
    have hdata : entry (deleteImage s d).data markerName = none := by
      rw [hdel]
      unfold setDefaultImage
      simp only [if_true]
      exact entry_qfileRemove_marker _ hnodir
    constructor
    · intro first rest h
      rw [hkeys] at h
      cases h
    · intro _
      exact ⟨getDefaultImage_of_no_marker _ hdata, hdata⟩
  | cons e rest =>
    obtain ⟨first, v⟩ := e
    rw [hl] at hdel
    simp only at hdel
    have himg : (deleteImage s d).images = s2.images := by
      rw [hdel]
      exact setDefaultImage_images _ _
    have hkeys : catalogKeys (deleteImage s d) = first :: rest.map Prod.fst := by
      rw [catalogKeys_images _ _ himg]
      simp [catalogKeys, hl]
    have hmem : first ∈ catalogKeys s2 := by simp [catalogKeys, hl]
    obtain ⟨hhid, c, hc⟩ := (mem_catalogKeys s2 first).mp hmem
    constructor
    · intro f r h
      have hleast := catalogKeys_first_least _ f r h
      rw [hkeys] at h
      have hf : f = first := (List.cons.inj h).1.symm ▸ rfl
      subst hf
      refine ⟨?_, ?_, ⟨c, by rw [himg]; exact hc⟩, hleast⟩
      · by_cases hfe : f = ""
        · have hdata : entry (deleteImage s d).data markerName = none := by
            rw [hdel]
            unfold setDefaultImage
            simp only [hfe, if_true]
            exact entry_qfileRemove_marker _ hnodir
          rw [getDefaultImage_of_no_marker _ hdata, hfe]
        · apply getDefaultImage_of_marker
          · rw [hdel]
            unfold setDefaultImage
            simp only [hfe, if_false]
            exact entry_qfileWrite_marker _ _ hnodir
          · rw [himg]
            simp [pathExists, hc]
      · intro e
        subst e
        by_cases hdir : isDirName f = true
        · rw [isHidden_of_isDirName f hdir hd] at hhid
          cases hhid
        · rw [himg2] at hc
          exact entry_qfileRemove_same s.images f c (by simpa using hdir) hc
    · intro h
      rw [hkeys] at h
      cases h

/-- Claim C2 on the scenario of the specification: with default `raspbian.img`, after
`deleteImage raspbian.img` the default is `my_os.img`. -/
theorem deleteImage_of_default_witness :
    "raspbian.img" ≠ "" ∧
    getDefaultImage (setDefaultImage scenario "raspbian.img") = "raspbian.img" ∧
    getDefaultImage (deleteImage (setDefaultImage scenario "raspbian.img") "raspbian.img") =
      "my_os.img" :=
  ⟨by decide, by decide,
    ((deleteImage_of_default (setDefaultImage scenario "raspbian.img") "raspbian.img"
      (by decide) (by decide)).1 "my_os.img" [] (by decide)).1⟩

/-- Claim C3 as stated fails: with images `a.img` and `b.img` and default `a.img`, after
`renameImage a.img b.img` the marker names `b.img`, but the file under that name is the
image `b.img` had before, and `a.img` is still there: the rename onto an existing name is
refused. -/
theorem renameImage_onto_existing :
    getDefaultImage twoImages = "a.img" ∧
    getDefaultImage (renameImage twoImages "a.img" "b.img") = "b.img" ∧
    entry (renameImage twoImages "a.img" "b.img").images "b.img" = some (Node.file "B") ∧
    entry (renameImage twoImages "a.img" "b.img").images "a.img" = some (Node.file "A") ∧
    entry (renameImage twoImages "a.img" "b.img").images "b.img" ≠
      entry twoImages.images "a.img" := by
  decide

/-- Claim C3 amended: when `old`, a file name other than `default`, is the current default
and `new` is a file name different from `old` under which `/mnt/images` holds nothing,
then after `renameImage old new` the marker file contains exactly `new`, the default is
`new`, and what is stored under `images/new` is what was stored under `images/old`, which
is gone from its old name. -/
theorem renameImage_of_default (s : Partition) (oldname newName : String)
    (hold : fileName oldname = true) (hnew : fileName newName = true)
    (hne : newName ≠ oldname) (hres : oldname ≠ markerName)
    (hdef : getDefaultImage s = oldname) (hfree : entry s.images newName = none) :
    entry (renameImage s oldname newName).data markerName = some (Node.file newName) ∧
    getDefaultImage (renameImage s oldname newName) = newName ∧
    (∃ node, entry s.images oldname = some node ∧
      entry (renameImage s oldname newName).images newName = some node) ∧
    entry (renameImage s oldname newName).images oldname = none := by
  obtain ⟨hod, hoe⟩ := isDirName_of_fileName oldname hold
  obtain ⟨hnd, hnn⟩ := isDirName_of_fileName newName hnew
  obtain ⟨hmark, hex⟩ := marker_of_default s oldname hoe hdef
  have hnode : ∃ node, entry s.images oldname = some node := by
    cases he : entry s.images oldname with
    | none => simp [pathExists, hod, he] at hex
    | some node => exact ⟨node, rfl⟩
  obtain ⟨node, hnode⟩ := hnode
  have hren : renameImage s oldname newName =
      ⟨qfileRename s.images oldname newName,
        qfileRename (qfileWrite s.data markerName (toAscii newName)) oldname newName⟩ := by
    unfold renameImage setDefaultImage
    simp only [hdef, if_true, hnn, if_false]
  have himg : (renameImage s oldname newName).images =
      putEntry (removeEntry s.images oldname) newName node := by
    rw [hren]
    exact qfileRename_moves _ _ _ _ (by simp [pathExists, hnd, hfree]) hod hnode
  have hwritten : entry (qfileWrite s.data markerName (toAscii newName)) markerName =
      some (Node.file newName) :=
    entry_qfileWrite_marker _ _ (by intro fs; rw [hmark]; simp)
  have hkeep : ∀ X : Dir, entry X markerName = some (Node.file newName) →
      entry (qfileRename X oldname newName) markerName = some (Node.file newName) := by
    intro X hX
    by_cases hm : markerName = newName
    · have hp : pathExists X newName = true := by
        rw [← hm]
        simp [pathExists, hX]
      rw [qfileRename_refused _ _ _ hp]
      exact hX
    · rw [entry_qfileRename_other _ _ _ _ (Ne.symm hres) hm]
      exact hX
  have hdata : entry (renameImage s oldname newName).data markerName =
      some (Node.file newName) := by
    rw [hren]
    exact hkeep _ hwritten
  have hnew2 : entry (renameImage s oldname newName).images newName = some node := by
    rw [himg, entry_putEntry_same]
  refine ⟨hdata, ?_, ⟨node, hnode, hnew2⟩, ?_⟩
  · exact getDefaultImage_of_marker _ _ hdata (by simp [pathExists, hnew2])
  · rw [himg, entry_putEntry_ne _ _ _ _ (Ne.symm hne), entry_removeEntry_same]

/-- The amended claim C3 for the default image `a.img` renamed to the free name `c.img`. -/
theorem renameImage_of_default_witness :
    getDefaultImage twoImages = "a.img" ∧
    getDefaultImage (renameImage twoImages "a.img" "c.img") = "c.img" ∧
    entry (renameImage twoImages "a.img" "c.img").images "c.img" = some (Node.file "A") :=
  ⟨by decide,
    (renameImage_of_default twoImages "a.img" "c.img" (by decide) (by decide) (by decide)
      (by decide) (by decide) (by decide)).2.1,
    by decide⟩

/-- Claim C5: when image `old` exists and nothing is stored under `images/new`, for
distinct filename-safe names, after `cloneImage old new true` followed by
`deleteImage old` the file `images/new` is there with the content `old` had, `new` is a key
of the catalog and `old` is not, and the data directory `data/new`, when the clone created
it or `new` is not the name of the marker file, is as it was right after the clone. -/
theorem clone_then_delete (cp : CopyCommand) (s : Partition) (oldname newname c : String)
    (hold : filenameSafe oldname = true) (hnew : filenameSafe newname = true)
    (hne : oldname ≠ newname) (hex : entry s.images oldname = some (Node.file c))
    (hfree : entry s.images newname = none) :
    entry (deleteImage (cloneImage cp s oldname newname true) oldname).images newname =
      some (Node.file c) ∧
    newname ∈ catalogKeys (deleteImage (cloneImage cp s oldname newname true) oldname) ∧
    oldname ∉ catalogKeys (deleteImage (cloneImage cp s oldname newname true) oldname) ∧
    (entry s.data newname = none ∨ newname ≠ markerName →
      entry (deleteImage (cloneImage cp s oldname newname true) oldname).data newname =
        entry (cloneImage cp s oldname newname true).data newname) := by
  obtain ⟨hod, hoe, _⟩ := isDirName_of_filenameSafe oldname hold
  obtain ⟨hnd, _, hnh⟩ := isDirName_of_filenameSafe newname hnew
  have hl := link_ok s.images oldname newname c hod hex (by simp [pathExists, hnd, hfree])
  obtain ⟨himg, hdata, hdir⟩ := cloneImage_linked cp s oldname newname true _ hl
  generalize cloneImage cp s oldname newname true = s1 at himg hdata hdir ⊢
  have hold1 : entry s1.images oldname = some (Node.file c) := by
    rw [himg, entry_putEntry_ne _ _ _ _ hne, hex]
  have himg2 : (deleteImage s1 oldname).images = removeEntry s1.images oldname := by
    rw [deleteImage_images]
    unfold qfileRemove
    simp [hod, hold1]
  have hnew2 : entry (deleteImage s1 oldname).images newname = some (Node.file c) := by
    rw [himg2, entry_removeEntry_ne _ _ _ (Ne.symm hne), himg, entry_putEntry_same]
  refine ⟨hnew2, ?_, ?_, ?_⟩
  · exact (mem_catalogKeys _ _).mpr ⟨hnh, c, hnew2⟩
  · intro hmem
    obtain ⟨_, c2, hc2⟩ := (mem_catalogKeys _ _).mp hmem
    rw [himg2, entry_removeEntry_same] at hc2
    cases hc2
  · intro h
    by_cases hm : newname = markerName
    · have hnone : entry s.data newname = none := by
        rcases h with h | h
        · exact h
        · exact absurd hm h
      have hdef : getDefaultImage s1 ≠ oldname := by
        have h0 : getDefaultImage s1 = "" := by
          rw [getDefaultImage_eq, ← hm]
          rcases hdir hnone with h1 | ⟨fs, h1⟩
          · rw [h1]
          · rw [h1]
        rw [h0]
        exact Ne.symm hoe
      rw [deleteImage_not_default s1 oldname hoe hdef]
      exact entry_rmRf_ne _ _ _ (Ne.symm hne)
    · exact deleteImage_data_ne s1 oldname newname hm (Ne.symm hne)

/-- Claim C5 for `a.img` cloned to `c.img` with its data and then deleted. -/
theorem clone_then_delete_witness :
    filenameSafe "a.img" = true ∧ filenameSafe "c.img" = true ∧
    catalogKeys (deleteImage (cloneImage cpFiles twoImages "a.img" "c.img" true) "a.img") =
      ["b.img", "c.img"] ∧
    entry (deleteImage (cloneImage cpFiles twoImages "a.img" "c.img" true) "a.img").images
      "c.img" = some (Node.file "A") ∧
    entry (deleteImage (cloneImage cpFiles twoImages "a.img" "c.img" true) "a.img").data
      "c.img" = some (Node.dir [("hostname", "pi")]) :=
  ⟨by decide, by decide, by decide,
    (clone_then_delete cpFiles twoImages "a.img" "c.img" "A" (by decide) (by decide)
      (by decide) (by decide) (by decide)).1,
    by decide⟩

/-- Claim C1 as stated fails: from the catalog with the single image `a.img`, after
`setDefaultImage a.img` and `renameImage a.img .a.img` the default is `.a.img`, a hidden
file, which the catalog does not list. -/
theorem default_not_listed_when_hidden :
    getDefaultImage
      (run cpFiles oneImage [Op.setDefaultImage "a.img", Op.renameImage "a.img" ".a.img"]) =
      ".a.img" ∧
    catalogKeys
      (run cpFiles oneImage [Op.setDefaultImage "a.img", Op.renameImage "a.img" ".a.img"]) =
      [] ∧
    ¬ (getDefaultImage
        (run cpFiles oneImage [Op.setDefaultImage "a.img", Op.renameImage "a.img" ".a.img"]) =
        "" ∨
      getDefaultImage
        (run cpFiles oneImage [Op.setDefaultImage "a.img", Op.renameImage "a.img" ".a.img"]) ∈
        catalogKeys
          (run cpFiles oneImage
            [Op.setDefaultImage "a.img", Op.renameImage "a.img" ".a.img"])) := by
  decide

/-- Claim C1 amended: starting from a regular catalog (regular files with filename-safe
names under `/mnt/images`, a marker file holding a filename-safe name or nothing), after
any finite sequence of `setDefaultImage`, `renameImage`, `cloneImage` and `deleteImage`
calls whose name arguments are filename-safe (or empty, to clear the default) and that
create no image named `default`, `getDefaultImage` returns the empty name or a key of
`listInstalledImages` in the same state. -/
theorem default_in_catalog (cp : CopyCommand) (s : Partition) (ops : List Op)
    (hs : regularCatalog s = true) (hops : ∀ op ∈ ops, safeOp op = true) :
    getDefaultImage (run cp s ops) = "" ∨
      getDefaultImage (run cp s ops) ∈ catalogKeys (run cp s ops) :=
  default_listed _ (regular_run cp ops s hs hops)

/-- The amended claim C1 on a run of four calls from the scenario of the specification. -/
theorem default_in_catalog_witness :
    regularCatalog scenario = true ∧
    (∀ op ∈ [Op.setDefaultImage "raspbian.img", Op.cloneImage "raspbian.img" "copy.img" true,
        Op.renameImage "raspbian.img" "pi.img", Op.deleteImage "pi.img"],
      safeOp op = true) ∧
    (getDefaultImage
        (run cpFiles scenario
          [Op.setDefaultImage "raspbian.img", Op.cloneImage "raspbian.img" "copy.img" true,
            Op.renameImage "raspbian.img" "pi.img", Op.deleteImage "pi.img"]) = "" ∨
      getDefaultImage
        (run cpFiles scenario
          [Op.setDefaultImage "raspbian.img", Op.cloneImage "raspbian.img" "copy.img" true,
            Op.renameImage "raspbian.img" "pi.img", Op.deleteImage "pi.img"]) ∈
        catalogKeys
          (run cpFiles scenario
            [Op.setDefaultImage "raspbian.img", Op.cloneImage "raspbian.img" "copy.img" true,
              Op.renameImage "raspbian.img" "pi.img", Op.deleteImage "pi.img"])) :=
  ⟨by decide, by decide,
    default_in_catalog cpFiles scenario
      [Op.setDefaultImage "raspbian.img", Op.cloneImage "raspbian.img" "copy.img" true,
        Op.renameImage "raspbian.img" "pi.img", Op.deleteImage "pi.img"]
      (by decide) (by decide)⟩

end Installer
